import Mathlib

/-!
Verification development for the portfolio-tracker repository.

This file gives a shallow embedding, in Lean 4, of the pure core of the
TypeScript sources: the holdings-token scanner used by the change detector
(`ChangeDetectionService.extractSecuritySymbols` /
`extractHoldingsFromPortfolio` and
`CombinedAccountService.extractHoldingsWithPercentages`), the numeric parser
(`EmailParser.parseNumber`), the trading-calendar utilities
(`BusinessDayUtils`), the three fuzzy model-name matchers, the account
grouping and sorting of `AccountPortfolioService.getAccountPortfolios`, the
currency-suffix helpers of `CombinedAccountService`, and the change-detection
orchestration `ChangeDetectionService.detectChanges`.

Embedding conventions:
* JavaScript strings are Lean `String`s; character tests are written over
  `Char.toNat` and are faithful for the ASCII inputs the code operates on
  (the regex classes `[A-Z.]`, `\d`, `\s` and JS `toLowerCase` are modelled
  on ASCII).
* JavaScript numbers are modelled as `Option ℚ`, with `none` playing the
  role of `NaN`; `parseFloat` is modelled exactly on the character alphabet
  `[0-9.-]` that remains after the cleaning steps of `parseNumber`.
* Calendar dates are modelled as civil day numbers (days since 0000-03-01,
  the standard era encoding); an ISO `YYYY-MM-DD` string corresponds to one
  day number via `toEpochDay`.  JS `Date` arithmetic on UTC dates
  (`setDate(getDate() ± 1)`) is exactly `± 1` on the day number, and JS
  `getDay()` is `(day + 3) % 7` in this encoding.
* The unbounded `do … while(true)` search loops of `BusinessDayUtils` are
  modelled with explicit fuel; a theorem shows fuel 6 always suffices.
* `detectChanges` performs I/O (it fetches two days of portfolios); it is
  modelled as a pure function over an oracle `fetch : ℕ → List
  AccountPortfolio` and additionally returns the list of dates it passed to
  the oracle, so that "no portfolio data is fetched" is expressible.
-/

/-- ASCII whitespace characters matched by the JS regex class `\s`
(space, tab, line feed, vertical tab, form feed, carriage return). -/
def isWSChar (c : Char) : Bool :=
  c.toNat == 32 || c.toNat == 9 || c.toNat == 10 ||
  c.toNat == 11 || c.toNat == 12 || c.toNat == 13

/-- ASCII decimal digit, the JS regex class `\d`. -/
def isDigitChar (c : Char) : Bool :=
  48 ≤ c.toNat && c.toNat ≤ 57

/-- Characters matched by the symbol class `[A-Z.]` used in
`ChangeDetectionService` (part_005 lines 189 and 209). -/
def isSymChar5 (c : Char) : Bool :=
  (65 ≤ c.toNat && c.toNat ≤ 90) || c.toNat == 46

/-- Characters matched by the symbol class `[A-Z\\.]` used in
`CombinedAccountService.extractHoldingsWithPercentages` (part_006 line 191):
uppercase letters, a literal backslash, and a dot. -/
def isSymChar6 (c : Char) : Bool :=
  (65 ≤ c.toNat && c.toNat ≤ 90) || c.toNat == 46 || c.toNat == 92

/-- ASCII lower-casing of one character, the behaviour of JS
`String.prototype.toLowerCase` on ASCII letters. -/
def jsLowerChar (c : Char) : Char :=
  if 65 ≤ c.toNat ∧ c.toNat ≤ 90 then Char.ofNat (c.toNat + 32) else c

/-- Model of JS `toLowerCase` (ASCII). -/
def jsToLower (s : String) : String :=
  String.mk (s.data.map jsLowerChar)

/-- Model of JS `a.includes(b)`: substring containment, tested as
"some suffix of `s` has `sub` as a prefix". -/
def jsIncludes (s sub : String) : Bool :=
  s.data.tails.any (fun t => List.isPrefixOf sub.data t)

/-- Model of JS `s.startsWith(p)`. -/
def jsStartsWith (s p : String) : Bool :=
  List.isPrefixOf p.data s.data

/-- Trim of a character list on the left: drop leading whitespace. -/
def trimLeftChars (l : List Char) : List Char :=
  l.dropWhile isWSChar

/-- Model of JS `String.prototype.trim` on a character list:
drop leading and trailing ASCII whitespace. -/
def jsTrimChars (l : List Char) : List Char :=
  ((trimLeftChars l).reverse.dropWhile isWSChar).reverse

/-- Model of JS `String.prototype.trim`. -/
def jsTrim (s : String) : String :=
  String.mk (jsTrimChars s.data)

/-- Insertion into a JS `Set`, keeping track of the elements already seen:
an element is kept exactly when it has not occurred before. -/
def jsSetDedupAcc (seen : List String) : List String → List String
  | [] => []
  | a :: l =>
    if seen.contains a then jsSetDedupAcc seen l
    else a :: jsSetDedupAcc (seen ++ [a]) l

/-- Model of JS `[...new Set(xs)]`: remove duplicates keeping the first
occurrence of each element, in order. -/
def jsSetDedup (l : List String) : List String :=
  jsSetDedupAcc [] l

/-- Model of the JS replace of the regex `^\d+\.\s*` by the empty string
followed by `.trim()`, as used by all three `modelsMatch` helpers: strip a
leading run of digits immediately followed by a dot and any following
whitespace, then trim. -/
def stripLeadNum (s : String) : String :=
  let l := s.data
  let ds := l.takeWhile isDigitChar
  let r := l.dropWhile isDigitChar
  if ds ≠ [] then
    match r with
    | '.' :: r2 => jsTrim (String.mk (r2.dropWhile isWSChar))
    | _ => jsTrim s
  else jsTrim s

/-- Membership after deduplication with a `seen` accumulator. -/
theorem mem_jsSetDedupAcc (l : List String) (seen : List String) (x : String) :
    x ∈ jsSetDedupAcc seen l ↔ x ∈ l ∧ x ∉ seen := by
  induction l generalizing seen with
  | nil => simp [jsSetDedupAcc]
  | cons a t ih =>
    cases hc : seen.contains a with
    | true =>
      have haMem : a ∈ seen := List.elem_iff.mp hc
      rw [jsSetDedupAcc, hc, if_pos rfl, ih]
      simp only [List.mem_cons]
      constructor
      · rintro ⟨h1, h2⟩
        exact ⟨Or.inr h1, h2⟩
      · rintro ⟨h1 | h1, h2⟩
        · subst h1; exact absurd haMem h2
        · exact ⟨h1, h2⟩
    | false =>
      have haMem : a ∉ seen := by
        intro hm
        have h2 : seen.contains a = true := List.elem_iff.mpr hm
        rw [h2] at hc
        exact Bool.noConfusion hc
      rw [jsSetDedupAcc, hc, if_neg Bool.false_ne_true]
      simp only [List.mem_cons, ih]
      constructor
      · rintro (h1 | ⟨h1, h2⟩)
        · subst h1; exact ⟨Or.inl rfl, haMem⟩
        · refine ⟨Or.inr h1, fun hx => h2 ?_⟩
          simp [hx]
      · rintro ⟨h1, h2⟩
        by_cases hxa : x = a
        · exact Or.inl hxa
        · rcases h1 with h1 | h1
          · exact absurd h1 hxa
          · refine Or.inr ⟨h1, fun hx => ?_⟩
            rcases List.mem_append.mp hx with hx2 | hx2
            · exact h2 hx2
            · exact hxa (by simpa using hx2)

/-- Membership in `jsSetDedup` agrees with membership in the input. -/
theorem mem_jsSetDedup (l : List String) (x : String) :
    x ∈ jsSetDedup l ↔ x ∈ l := by
  rw [jsSetDedup, mem_jsSetDedupAcc]
  simp

/-- If every element of `a` satisfies `p` and the head of `b` does not,
`takeWhile p` of `a ++ b` is exactly `a`. -/
theorem takeWhile_append_run {p : Char → Bool} {a b : List Char}
    (h1 : ∀ c ∈ a, p c = true)
    (h2 : ∀ c bs, b = c :: bs → p c = false) :
    List.takeWhile p (a ++ b) = a := by
  induction a with
  | nil =>
    cases b with
    | nil => simp
    | cons c bs => simp [List.takeWhile, h2 c bs rfl]
  | cons x t ih =>
    have hx : p x = true := h1 x (List.mem_cons_self x t)
    simp only [List.cons_append, List.takeWhile, hx]
    simp only [List.cons.injEq, true_and]
    exact ih (fun c hc => h1 c (List.mem_cons_of_mem x hc))

/-- Companion of `takeWhile_append_run` for `dropWhile`. -/
theorem dropWhile_append_run {p : Char → Bool} {a b : List Char}
    (h1 : ∀ c ∈ a, p c = true)
    (h2 : ∀ c bs, b = c :: bs → p c = false) :
    List.dropWhile p (a ++ b) = b := by
  induction a with
  | nil =>
    cases b with
    | nil => simp
    | cons c bs => simp [List.dropWhile, h2 c bs rfl]
  | cons x t ih =>
    have hx : p x = true := h1 x (List.mem_cons_self x t)
    simp only [List.cons_append, List.dropWhile, hx]
    exact ih (fun c hc => h1 c (List.mem_cons_of_mem x hc))

/-! ## The holdings-token scanner

The regexes `/([A-Z\.]+)\s*\((\d+%)\)/g` (part_005 line 189, part_006 line
191) and `/([A-Z\.]+)\s*\(\d+%\)/g` (part_005 line 209) have identical
whole-match semantics (they differ only in capture groups, which `.match`
with the `g` flag ignores).  For this pattern, greedy matching with no
backtracking is complete, because the symbol class, `\s` and the literal
`(` are pairwise disjoint: a successful backtracked match would need the
character after a shortened run to simultaneously be in two disjoint
classes.  The scanner below therefore mirrors JS global matching: at each
position it attempts a greedy match and, on failure, advances one
character; on success it continues right after the match. -/

/-- One match of the holdings-token pattern: the symbol run, the (possibly
empty) whitespace run, and the digit run of the percentage. -/
structure HoldToken where
  sym : List Char
  ws : List Char
  digits : List Char
  deriving DecidableEq, Repr

/-- The full matched substring of a token: `SYM` ++ ws ++ `(` ++ digits ++ `%)`. -/
def HoldToken.full (t : HoldToken) : List Char :=
  t.sym ++ t.ws ++ '(' :: (t.digits ++ ['%', ')'])

/-- Helper: a list whose optional head is `some a` is `a` consed on its tail. -/
theorem eq_cons_of_headq {α : Type} {l : List α} {a : α}
    (h : l.head? = some a) : l = a :: l.tail := by
  cases l with
  | nil => exact Option.noConfusion h
  | cons x t =>
    simp only [List.head?] at h
    injection h with h1
    rw [h1]
    rfl

/-- Attempt a greedy match of `SYM\s*\(\d+%\)` at the head of `l`; on
success return the token and the remaining input. -/
def matchAt (isSym : Char → Bool) (l : List Char) :
    Option (HoldToken × List Char) :=
  let sym := l.takeWhile isSym
  if sym = [] then none
  else
    let r1 := l.dropWhile isSym
    let ws := r1.takeWhile isWSChar
    let r2 := r1.dropWhile isWSChar
    if r2.head? = some '(' then
      let r3 := r2.tail
      let digits := r3.takeWhile isDigitChar
      if digits = [] then none
      else
        let r4 := r3.dropWhile isDigitChar
        if r4.head? = some '%' ∧ r4.tail.head? = some ')' then
          some (⟨sym, ws, digits⟩, r4.tail.tail)
        else none
    else none

/-- Structure of a successful match: the input splits as the full matched
substring followed by the rest, and the three runs are well formed. -/
theorem matchAt_spec (isSym : Char → Bool) (l : List Char) (t : HoldToken)
    (r : List Char) (h : matchAt isSym l = some (t, r)) :
    l = t.full ++ r ∧ t.sym ≠ [] ∧ (∀ c ∈ t.sym, isSym c = true) ∧
      (∀ c ∈ t.ws, isWSChar c = true) ∧ t.digits ≠ [] ∧
      (∀ c ∈ t.digits, isDigitChar c = true) := by
  simp only [matchAt] at h
  by_cases h0 : List.takeWhile isSym l = []
  · rw [if_pos h0] at h; exact Option.noConfusion h
  rw [if_neg h0] at h
  by_cases hp : (List.dropWhile isWSChar (List.dropWhile isSym l)).head? = some '('
  case neg => rw [if_neg hp] at h; exact Option.noConfusion h
  rw [if_pos hp] at h
  by_cases h1 : ((List.dropWhile isWSChar (List.dropWhile isSym l)).tail).takeWhile
      isDigitChar = []
  · rw [if_pos h1] at h; exact Option.noConfusion h
  rw [if_neg h1] at h
  by_cases h2 : ((List.dropWhile isWSChar (List.dropWhile isSym l)).tail.dropWhile
        isDigitChar).head? = some '%' ∧
      ((List.dropWhile isWSChar (List.dropWhile isSym l)).tail.dropWhile
        isDigitChar).tail.head? = some ')'
  case neg => rw [if_neg h2] at h; exact Option.noConfusion h
  rw [if_pos h2] at h
  injection h with h3
  cases h3
  refine ⟨?_, by simpa using h0, ?_, ?_, by simpa using h1, ?_⟩
  · simp only [HoldToken.full]
    have e1 : List.takeWhile isSym l ++ List.dropWhile isSym l = l :=
      List.takeWhile_append_dropWhile isSym l
    have e2 : List.takeWhile isWSChar (List.dropWhile isSym l) ++
        List.dropWhile isWSChar (List.dropWhile isSym l) = List.dropWhile isSym l :=
      List.takeWhile_append_dropWhile isWSChar (List.dropWhile isSym l)
    have e3 : (List.dropWhile isWSChar (List.dropWhile isSym l)).tail.takeWhile
          isDigitChar ++
        (List.dropWhile isWSChar (List.dropWhile isSym l)).tail.dropWhile
          isDigitChar =
        (List.dropWhile isWSChar (List.dropWhile isSym l)).tail :=
      List.takeWhile_append_dropWhile isDigitChar _
    have e4 := eq_cons_of_headq hp
    have e5 := eq_cons_of_headq h2.1
    have e6 := eq_cons_of_headq h2.2
    calc l = List.takeWhile isSym l ++ List.dropWhile isSym l := e1.symm
      _ = List.takeWhile isSym l ++
            (List.takeWhile isWSChar (List.dropWhile isSym l) ++
              List.dropWhile isWSChar (List.dropWhile isSym l)) := by rw [e2]
      _ = _ := by
            rw [e4]
            nth_rewrite 1 [← e3]
            nth_rewrite 1 [e5]
            nth_rewrite 1 [e6]
            simp
  · intro c hc
    exact List.mem_takeWhile_imp hc
  · intro c hc
    exact List.mem_takeWhile_imp hc
  · intro c hc
    exact List.mem_takeWhile_imp hc

/-- A successful `matchAt` consumes at least one character. -/
theorem matchAt_rest_lt (isSym : Char → Bool) (l : List Char)
    (t : HoldToken) (r : List Char) (h : matchAt isSym l = some (t, r)) :
    r.length < l.length := by
  obtain ⟨hl, hsym, -⟩ := matchAt_spec isSym l t r h
  rw [hl]
  have hlen : t.full.length ≠ 0 := by
    simp only [HoldToken.full, List.length_append]
    rcases hs : t.sym with _ | _
    · exact absurd hs hsym
    · simp
  simp only [List.length_append]
  omega

/-- Fuel-driven scan for successive matches of the holdings-token pattern:
try a match at the current position, restart right after a successful
match, otherwise advance one character.  One unit of fuel is spent per
step, and each step strictly shortens the input, so `l.length` fuel always
completes the scan. -/
def scanTokensF (isSym : Char → Bool) : ℕ → List Char → List HoldToken
  | 0, _ => []
  | _ + 1, [] => []
  | fuel + 1, c :: rest =>
    match matchAt isSym (c :: rest) with
    | some (t, r5) => t :: scanTokensF isSym fuel r5
    | none => scanTokensF isSym fuel rest

/-- Scan the whole input for successive matches of the holdings-token
pattern, mirroring `String.prototype.match` with the `g` flag. -/
def scanTokens (isSym : Char → Bool) (l : List Char) : List HoldToken :=
  scanTokensF isSym l.length l

/-- Every token produced by the fuel-driven scanner is well formed. -/
theorem scanTokensF_wf (isSym : Char → Bool) (fuel : ℕ) (l : List Char)
    (t : HoldToken) (ht : t ∈ scanTokensF isSym fuel l) :
    t.sym ≠ [] ∧ (∀ c ∈ t.sym, isSym c = true) ∧
      (∀ c ∈ t.ws, isWSChar c = true) ∧ t.digits ≠ [] ∧
      (∀ c ∈ t.digits, isDigitChar c = true) := by
  induction fuel generalizing l with
  | zero => simp [scanTokensF] at ht
  | succ n ih =>
    cases l with
    | nil => simp [scanTokensF] at ht
    | cons c rest =>
      rw [scanTokensF] at ht
      rcases hm : matchAt isSym (c :: rest) with _ | ⟨t0, r5⟩ <;> rw [hm] at ht
      · exact ih rest ht
      · rcases List.mem_cons.mp ht with h | h
        · subst h
          obtain ⟨-, h2, h3, h4, h5, h6⟩ := matchAt_spec isSym (c :: rest) t r5 hm
          exact ⟨h2, h3, h4, h5, h6⟩
        · exact ih r5 h

/-- Every token produced by the scanner is well formed. -/
theorem scanTokens_wf (isSym : Char → Bool) (l : List Char) (t : HoldToken)
    (ht : t ∈ scanTokens isSym l) :
    t.sym ≠ [] ∧ (∀ c ∈ t.sym, isSym c = true) ∧
      (∀ c ∈ t.ws, isWSChar c = true) ∧ t.digits ≠ [] ∧
      (∀ c ∈ t.digits, isDigitChar c = true) :=
  scanTokensF_wf isSym l.length l t ht

/-- First maximal run of `isSym` characters in a list: the whole-string
match of the non-global regex `/([A-Z\.]+)/` used on each token string by
`extractSecuritySymbols` (part_005 line 213). -/
def firstSymRun (isSym : Char → Bool) : List Char → List Char
  | [] => []
  | c :: rest => if isSym c then c :: rest.takeWhile isSym else firstSymRun isSym rest

/-- If a list neither starts nor ends with whitespace, `jsTrimChars` is the
identity on it. -/
theorem jsTrimChars_eq_self {l : List Char}
    (h1 : ∀ c, l.head? = some c → isWSChar c = false)
    (h2 : ∀ c, l.getLast? = some c → isWSChar c = false) :
    jsTrimChars l = l := by
  have d1 : trimLeftChars l = l := by
    unfold trimLeftChars
    cases hl : l with
    | nil => rfl
    | cons c bs =>
      have := h1 c (by rw [hl]; rfl)
      simp [List.dropWhile, this]
  unfold jsTrimChars
  rw [d1]
  have d2 : l.reverse.dropWhile isWSChar = l.reverse := by
    cases hr : l.reverse with
    | nil => rfl
    | cons c bs =>
      have hc : l.getLast? = some c := by
        rw [← List.head?_reverse, hr]
        rfl
      have := h2 c hc
      simp [List.dropWhile, this]
  rw [d2, List.reverse_reverse]

/-- For a well-formed token under a symbol class disjoint from whitespace
and not containing the parenthesis, the full matched substring is left
unchanged by trimming, and its first symbol run is the token symbol. -/
theorem token_full_parts (isSym : Char → Bool) (t : HoldToken)
    (hsym : t.sym ≠ []) (hall : ∀ c ∈ t.sym, isSym c = true)
    (hws : ∀ c ∈ t.ws, isWSChar c = true)
    (hdisj : ∀ c, isWSChar c = true → isSym c = false)
    (hparen : isSym '(' = false) :
    jsTrimChars t.full = t.full ∧ t.full.takeWhile isSym = t.sym ∧
      firstSymRun isSym t.full = t.sym := by
  rcases hs : t.sym with _ | ⟨c0, symRest⟩
  · exact absurd hs hsym
  have hc0 : isSym c0 = true := hall c0 (by rw [hs]; exact List.mem_cons_self c0 symRest)
  have hfull : t.full = c0 :: (symRest ++ (t.ws ++ '(' :: (t.digits ++ ['%', ')']))) := by
    simp [HoldToken.full, hs]
  have hboundary : ∀ c bs, (t.ws ++ '(' :: (t.digits ++ ['%', ')'])) = c :: bs →
      isSym c = false := by
    intro c bs hE
    rcases hw : t.ws with _ | ⟨w0, wrest⟩
    · rw [hw] at hE
      simp only [List.nil_append, List.cons.injEq] at hE
      rw [← hE.1]
      exact hparen
    · rw [hw] at hE
      simp only [List.cons_append, List.cons.injEq] at hE
      have : isWSChar w0 = true := hws w0 (by rw [hw]; exact List.mem_cons_self w0 wrest)
      rw [← hE.1]
      exact hdisj w0 this
  have htake : t.full.takeWhile isSym = c0 :: symRest := by
    have hall2 : ∀ c ∈ c0 :: symRest, isSym c = true := by
      rw [← hs]; exact hall
    have : t.full = (c0 :: symRest) ++ (t.ws ++ '(' :: (t.digits ++ ['%', ')'])) := by
      simpa using hfull
    rw [this]
    exact takeWhile_append_run hall2 hboundary
  refine ⟨?_, htake, ?_⟩
  · apply jsTrimChars_eq_self
    · intro c hc
      rw [hfull] at hc
      injection hc with h1
      rw [← h1]
      by_cases hwsc : isWSChar c0 = true
      · rw [hdisj c0 hwsc] at hc0
        exact Bool.noConfusion hc0
      · exact Bool.eq_false_iff.mpr hwsc
    · intro c hc
      have : t.full.getLast? = some ')' := by
        have : t.full = (t.sym ++ t.ws ++ '(' :: t.digits ++ ['%']) ++ [')'] := by
          simp [HoldToken.full]
        rw [this, List.getLast?_concat]
      rw [this] at hc
      injection hc with h1
      rw [← h1]
      rfl
  · rw [hfull]
    unfold firstSymRun
    rw [if_pos hc0]
    have e1 : (symRest ++ (t.ws ++ '(' :: (t.digits ++ ['%', ')']))).takeWhile isSym =
        symRest := by
      apply takeWhile_append_run
      · intro c hc
        exact hall c (by rw [hs]; exact List.mem_cons_of_mem c0 hc)
      · exact hboundary
    rw [e1]

/-- `ChangeDetectionService.extractHoldingsFromPortfolio` (part_005 lines
183–196): all whole matches of the token pattern, each trimmed. -/
def extractHoldingsFromPortfolio (s : String) : List String :=
  (scanTokens isSymChar5 s.data).map (fun t => jsTrim (String.mk t.full))

/-- `ChangeDetectionService.extractSecuritySymbols` (part_005 lines
202–221): for each whole match, the first `[A-Z.]+` run, i.e. the symbol. -/
def extractSecuritySymbols (s : String) : List String :=
  (scanTokens isSymChar5 s.data).map (fun t => String.mk (firstSymRun isSymChar5 t.full))

/-- `CombinedAccountService.extractHoldingsWithPercentages` (part_006 lines
185–198); its symbol class also admits a literal backslash. -/
def extractHoldingsWithPercentages (s : String) : List String :=
  (scanTokens isSymChar6 s.data).map (fun t => jsTrim (String.mk t.full))

/-- The `[A-Z.]` symbol class is disjoint from whitespace. -/
theorem isSymChar5_not_ws (c : Char) (h : isWSChar c = true) : isSymChar5 c = false := by
  simp only [isWSChar, Bool.or_eq_true, beq_iff_eq] at h
  simp only [isSymChar5, Bool.or_eq_false_iff, Bool.and_eq_false_iff, beq_eq_false_iff_ne]
  constructor
  · by_cases h65 : 65 ≤ c.toNat
    · right; simp only [decide_eq_false_iff_not]; omega
    · left; simp only [decide_eq_false_iff_not]; omega
  · omega

/-- The extended symbol class of part_006 is disjoint from whitespace. -/
theorem isSymChar6_not_ws (c : Char) (h : isWSChar c = true) : isSymChar6 c = false := by
  simp only [isWSChar, Bool.or_eq_true, beq_iff_eq] at h
  simp only [isSymChar6, Bool.or_eq_false_iff, Bool.and_eq_false_iff, beq_eq_false_iff_ne]
  refine ⟨⟨?_, ?_⟩, ?_⟩
  · by_cases h65 : 65 ≤ c.toNat
    · right; simp only [decide_eq_false_iff_not]; omega
    · left; simp only [decide_eq_false_iff_not]; omega
  · omega
  · omega

/-- Holdings extraction is the list of full token strings (trimming is the
identity on a token, which starts with a symbol character and ends in a
parenthesis). -/
theorem extractHoldingsFromPortfolio_eq (s : String) :
    extractHoldingsFromPortfolio s =
      (scanTokens isSymChar5 s.data).map (fun t => String.mk t.full) := by
  unfold extractHoldingsFromPortfolio
  apply List.map_congr_left
  intro t ht
  obtain ⟨h1, h2, h3, -, -⟩ := scanTokens_wf isSymChar5 s.data t ht
  obtain ⟨htrim, -, -⟩ :=
    token_full_parts isSymChar5 t h1 h2 h3 isSymChar5_not_ws (by decide)
  simp [jsTrim, htrim]

/-- Symbol extraction is the list of token symbols. -/
theorem extractSecuritySymbols_eq (s : String) :
    extractSecuritySymbols s =
      (scanTokens isSymChar5 s.data).map (fun t => String.mk t.sym) := by
  unfold extractSecuritySymbols
  apply List.map_congr_left
  intro t ht
  obtain ⟨h1, h2, h3, -, -⟩ := scanTokens_wf isSymChar5 s.data t ht
  obtain ⟨-, -, hrun⟩ :=
    token_full_parts isSymChar5 t h1 h2 h3 isSymChar5_not_ws (by decide)
  rw [hrun]

/-- The part_006 extraction is likewise the list of full token strings for
its extended symbol class. -/
theorem extractHoldingsWithPercentages_eq (s : String) :
    extractHoldingsWithPercentages s =
      (scanTokens isSymChar6 s.data).map (fun t => String.mk t.full) := by
  unfold extractHoldingsWithPercentages
  apply List.map_congr_left
  intro t ht
  obtain ⟨h1, h2, h3, -, -⟩ := scanTokens_wf isSymChar6 s.data t ht
  obtain ⟨htrim, -, -⟩ :=
    token_full_parts isSymChar6 t h1 h2 h3 isSymChar6_not_ws (by decide)
  simp [jsTrim, htrim]

/-! ## Change-detection data model (src/unnamed/part_005, `../types`) -/

/-- The performance block of a model
(`AccountPortfolioService.ModelData.performance`).  Only the fields read by
the verified claims are carried; the remaining numeric metrics
(`probabilityWin`, `sharpeRatio`, …) are structurally identical `ℚ` fields
never read by the functions under verification. -/
structure PerfData where
  finalEquity : ℚ
  returnYTD : ℚ
  portfolio : String
  deriving DecidableEq, Repr

/-- One model attributed to an account (`ModelData` of
`accountPortfolioService.ts`). -/
structure ModelData where
  name : String
  symbol : String
  performance : PerfData
  deriving DecidableEq, Repr

/-- One account portfolio (`AccountPortfolio` of
`accountPortfolioService.ts`).  Dates are day numbers, see the header. -/
structure AccountPortfolio where
  accountName : String
  models : List ModelData
  totalValue : ℚ
  date : ℕ
  deriving DecidableEq, Repr

/-- One model's per-date delta (`PortfolioChange` of `../types`). -/
structure PortfolioChange where
  modelName : String
  accountName : String
  addedHoldings : List String
  removedHoldings : List String
  date : ℕ
  deriving DecidableEq, Repr

/-- The removal loop of `compareModelHoldings` (part_005 lines 146–154):
for each symbol of the comparison day absent from today, push the first
full holding string of the comparison day that starts with it.  The JS
`Array.prototype.includes` test is modelled as decidable list membership. -/
def removedLoop (tSyms yHoldings ySyms : List String) : List String :=
  ySyms.foldl (fun acc s =>
    if s ∈ tSyms then acc
    else
      match yHoldings.find? (fun h => jsStartsWith h s) with
      | some h => acc ++ [h]
      | none => acc) []

/-- The addition loop of `compareModelHoldings` (part_005 lines 157–165);
it additionally skips holdings already accumulated. -/
def addedLoop (ySyms tHoldings tSyms : List String) : List String :=
  tSyms.foldl (fun acc s =>
    if s ∈ ySyms then acc
    else
      match tHoldings.find? (fun h => jsStartsWith h s) with
      | some h => if h ∈ acc then acc else acc ++ [h]
      | none => acc) []

/-- `ChangeDetectionService.compareModelHoldings` (part_005 lines 121–181).
The `yesterdayModel` may be absent (`undefined` in the source), in which
case both comparison-day lists are empty. -/
def compareModelHoldings (todayModel : ModelData)
    (yesterdayModel : Option ModelData) (accountName : String) (date : ℕ) :
    PortfolioChange :=
  let todaySymbols := extractSecuritySymbols todayModel.performance.portfolio
  let yesterdaySymbols :=
    match yesterdayModel with
    | some m => extractSecuritySymbols m.performance.portfolio
    | none => []
  let todayHoldings := extractHoldingsFromPortfolio todayModel.performance.portfolio
  let yesterdayHoldings :=
    match yesterdayModel with
    | some m => extractHoldingsFromPortfolio m.performance.portfolio
    | none => []
  { modelName := todayModel.name
    accountName := accountName
    addedHoldings := jsSetDedup (addedLoop yesterdaySymbols todayHoldings todaySymbols)
    removedHoldings := jsSetDedup (removedLoop todaySymbols yesterdayHoldings yesterdaySymbols)
    date := date }

/-- The removal loop maps every comparison-day symbol absent from today to
the first comparison-day holding it prefixes. -/
theorem removedLoop_eq (tSyms yHoldings ySyms : List String) :
    removedLoop tSyms yHoldings ySyms =
      ySyms.filterMap (fun s =>
        if s ∈ tSyms then none
        else yHoldings.find? (fun h => jsStartsWith h s)) := by
  have aux : ∀ (ys : List String) (acc : List String),
      ys.foldl (fun acc s =>
        if s ∈ tSyms then acc
        else
          match yHoldings.find? (fun h => jsStartsWith h s) with
          | some h => acc ++ [h]
          | none => acc) acc =
      acc ++ ys.filterMap (fun s =>
        if s ∈ tSyms then none
        else yHoldings.find? (fun h => jsStartsWith h s)) := by
    intro ys
    induction ys with
    | nil => simp
    | cons s t ih =>
      intro acc
      simp only [List.foldl_cons, List.filterMap_cons]
      by_cases hc : s ∈ tSyms
      · rw [if_pos hc, if_pos hc, ih]
      · rw [if_neg hc, if_neg hc]
        cases hf : yHoldings.find? (fun h => jsStartsWith h s) with
        | none => rw [ih]
        | some h =>
          rw [ih (acc ++ [h])]
          simp
  unfold removedLoop
  simpa using aux ySyms []

/-- Membership in the addition loop: exactly the holdings found for the
today-only symbols. -/
theorem mem_addedLoop (ySyms tHoldings tSyms : List String) (x : String) :
    x ∈ addedLoop ySyms tHoldings tSyms ↔
      x ∈ tSyms.filterMap (fun s =>
        if s ∈ ySyms then none
        else tHoldings.find? (fun h => jsStartsWith h s)) := by
  have aux : ∀ (ts : List String) (acc : List String),
      (x ∈ ts.foldl (fun acc s =>
        if s ∈ ySyms then acc
        else
          match tHoldings.find? (fun h => jsStartsWith h s) with
          | some h => if h ∈ acc then acc else acc ++ [h]
          | none => acc) acc) ↔
      (x ∈ acc ∨ x ∈ ts.filterMap (fun s =>
        if s ∈ ySyms then none
        else tHoldings.find? (fun h => jsStartsWith h s))) := by
    intro ts
    induction ts with
    | nil => simp
    | cons s t ih =>
      intro acc
      simp only [List.foldl_cons, List.filterMap_cons]
      by_cases hc : s ∈ ySyms
      · rw [if_pos hc, if_pos hc, ih]
      · rw [if_neg hc, if_neg hc]
        cases hf : tHoldings.find? (fun h => jsStartsWith h s) with
        | none => rw [ih]
        | some h =>
          rw [ih]
          have hmemIf : x ∈ (if h ∈ acc then acc else acc ++ [h]) ↔
              x ∈ acc ∨ x = h := by
            by_cases hac : h ∈ acc
            · rw [if_pos hac]
              constructor
              · exact Or.inl
              · rintro (hz | hz)
                · exact hz
                · subst hz; exact hac
            · rw [if_neg hac]
              simp [List.mem_append]
          rw [hmemIf]
          simp only [List.mem_cons]
          tauto
  unfold addedLoop
  rw [aux tSyms []]
  simp

/-- C1: if today's and the previous trading day's portfolio texts contain
the same set of security symbols — regardless of the percentage weights
attached — then `compareModelHoldings` reports no added and no removed
holdings. -/
theorem compareModelHoldings_same_symbol_set (todayModel ym : ModelData)
    (accountName : String) (date : ℕ)
    (h1 : extractSecuritySymbols todayModel.performance.portfolio ⊆
      extractSecuritySymbols ym.performance.portfolio)
    (h2 : extractSecuritySymbols ym.performance.portfolio ⊆
      extractSecuritySymbols todayModel.performance.portfolio) :
    (compareModelHoldings todayModel (some ym) accountName date).addedHoldings = [] ∧
      (compareModelHoldings todayModel (some ym) accountName date).removedHoldings
        = [] := by
  simp only [compareModelHoldings]
  constructor
  · rw [List.eq_nil_iff_forall_not_mem]
    intro x hx
    rw [mem_jsSetDedup, mem_addedLoop, List.mem_filterMap] at hx
    obtain ⟨s, hs, hfind⟩ := hx
    rw [if_pos (h1 hs)] at hfind
    exact Option.noConfusion hfind
  · rw [List.eq_nil_iff_forall_not_mem]
    intro x hx
    rw [mem_jsSetDedup, removedLoop_eq, List.mem_filterMap] at hx
    obtain ⟨s, hs, hfind⟩ := hx
    rw [if_pos (h2 hs)] at hfind
    exact Option.noConfusion hfind

/-- Witness for C1 at the spec's concrete reweighting example. -/
theorem compareModelHoldings_same_symbol_set_witness :
    (compareModelHoldings
      ⟨"M", "M", ⟨0, 0, "NVDA (17%)\nAVGO (42%)"⟩⟩
      (some ⟨"M", "M", ⟨0, 0, "NVDA (22%)\nAVGO (39%)"⟩⟩)
      "Acct" 20000).addedHoldings = [] ∧
    (compareModelHoldings
      ⟨"M", "M", ⟨0, 0, "NVDA (17%)\nAVGO (42%)"⟩⟩
      (some ⟨"M", "M", ⟨0, 0, "NVDA (22%)\nAVGO (39%)"⟩⟩)
      "Acct" 20000).removedHoldings = [] :=
  compareModelHoldings_same_symbol_set
    ⟨"M", "M", ⟨0, 0, "NVDA (17%)\nAVGO (42%)"⟩⟩
    ⟨"M", "M", ⟨0, 0, "NVDA (22%)\nAVGO (39%)"⟩⟩
    "Acct" 20000 (by decide) (by decide)

/-- A prefix made of `p`-characters is a prefix of the `takeWhile p` part. -/
theorem prefix_takeWhile {p : Char → Bool} {s l : List Char}
    (hs : ∀ c ∈ s, p c = true) (h : s <+: l) : s <+: l.takeWhile p := by
  induction s generalizing l with
  | nil => exact List.nil_prefix
  | cons c s2 ih =>
    obtain ⟨rest, hrest⟩ := h
    cases l with
    | nil => exact absurd hrest (by simp)
    | cons x l2 =>
      rw [List.cons_append] at hrest
      injection hrest with h1 h2
      subst h1
      have hc : p c = true := hs c (List.mem_cons_self c s2)
      rw [List.takeWhile, hc]
      have hp2 : s2 <+: l2 := ⟨rest, h2⟩
      obtain ⟨u, hu⟩ := ih (fun d hd => hs d (List.mem_cons_of_mem c hd)) hp2
      exact ⟨u, by rw [List.cons_append, hu]⟩

/-- The leading `[A-Z.]` run of a holding string; the claimed symbol of a
reported `"SYMBOL (NN%)"` string. -/
def leadSymRun (h : String) : String :=
  String.mk (h.data.takeWhile isSymChar5)

/-- A token string starts with its own symbol. -/
theorem token_startsWith_sym (t : HoldToken) :
    jsStartsWith (String.mk t.full) (String.mk t.sym) = true := by
  unfold jsStartsWith
  rw [List.isPrefixOf_iff_prefix]
  show t.sym <+: t.full
  unfold HoldToken.full
  rw [List.append_assoc]
  exact List.prefix_append t.sym _

/-- On a well-formed part_005 token, `leadSymRun` of the full string is the
token's symbol. -/
theorem leadSymRun_token (t : HoldToken) (h1 : t.sym ≠ [])
    (h2 : ∀ c ∈ t.sym, isSymChar5 c = true) (h3 : ∀ c ∈ t.ws, isWSChar c = true) :
    leadSymRun (String.mk t.full) = String.mk t.sym := by
  obtain ⟨-, htake, -⟩ :=
    token_full_parts isSymChar5 t h1 h2 h3 isSymChar5_not_ws (by decide)
  unfold leadSymRun
  rw [show (String.mk t.full).data = t.full from rfl, htake]

/-- If a string of symbol characters prefixes a well-formed token string,
it prefixes the token's symbol. -/
theorem startsWith_token_imp_sym (t : HoldToken) (s : String)
    (h2 : ∀ c ∈ t.sym, isSymChar5 c = true) (h3 : ∀ c ∈ t.ws, isWSChar c = true)
    (h1 : t.sym ≠ [])
    (hsall : ∀ c ∈ s.data, isSymChar5 c = true)
    (hpre : jsStartsWith (String.mk t.full) s = true) :
    s.data <+: t.sym := by
  obtain ⟨-, htake, -⟩ :=
    token_full_parts isSymChar5 t h1 h2 h3 isSymChar5_not_ws (by decide)
  unfold jsStartsWith at hpre
  rw [List.isPrefixOf_iff_prefix] at hpre
  have : s.data <+: t.full := hpre
  have := prefix_takeWhile hsall this
  rwa [htake] at this

/-- If the reporting lookup finds a holding for a symbol of a prefix-free
symbol list, the found holding belongs to the holdings list and its leading
symbol run is exactly the symbol looked up. -/
theorem find_holding_for_symbol (selfText : String) (s h : String)
    (hpf : ∀ a ∈ extractSecuritySymbols selfText,
      ∀ b ∈ extractSecuritySymbols selfText, a.data.isPrefixOf b.data = true → a = b)
    (hsmem : s ∈ extractSecuritySymbols selfText)
    (hfind : (extractHoldingsFromPortfolio selfText).find?
      (fun x => jsStartsWith x s) = some h) :
    h ∈ extractHoldingsFromPortfolio selfText ∧ leadSymRun h = s := by
  have hmem : h ∈ extractHoldingsFromPortfolio selfText :=
    List.mem_of_find?_eq_some hfind
  have hpred0 := List.find?_some hfind
  have hpred : jsStartsWith h s = true := hpred0
  refine ⟨hmem, ?_⟩
  rw [extractHoldingsFromPortfolio_eq] at hmem
  obtain ⟨t1, ht1, hfull⟩ := List.mem_map.mp hmem
  rw [extractSecuritySymbols_eq] at hsmem
  obtain ⟨t0, ht0, hsym⟩ := List.mem_map.mp hsmem
  obtain ⟨w1a, w1b, w1c, -, -⟩ := scanTokens_wf isSymChar5 _ t1 ht1
  obtain ⟨w0a, w0b, -, -, -⟩ := scanTokens_wf isSymChar5 _ t0 ht0
  have hsall : ∀ c ∈ s.data, isSymChar5 c = true := by
    rw [← hsym]
    exact w0b
  have hspre : s.data <+: t1.sym := by
    apply startsWith_token_imp_sym t1 s w1b w1c w1a hsall
    rw [hfull]
    exact hpred
  have hsymMem : String.mk t1.sym ∈ extractSecuritySymbols selfText := by
    rw [extractSecuritySymbols_eq]
    exact List.mem_map.mpr ⟨t1, ht1, rfl⟩
  have hsmem2 : s ∈ extractSecuritySymbols selfText := by
    rw [extractSecuritySymbols_eq]
    exact List.mem_map.mpr ⟨t0, ht0, hsym⟩
  have heq : s = String.mk t1.sym := by
    apply hpf s hsmem2 (String.mk t1.sym) hsymMem
    rw [List.isPrefixOf_iff_prefix]
    exact hspre
  rw [← hfull, leadSymRun_token t1 w1a w1b w1c, heq]

/-- One direction of the symbol-set delta for one side of the comparison:
with a prefix-free symbol list, every symbol missing from the other side is
reported by its own full holding string, and every reported holding string
is the full string of such a missing symbol. -/
theorem delta_side (selfText otherText : String)
    (hpf : ∀ a ∈ extractSecuritySymbols selfText,
      ∀ b ∈ extractSecuritySymbols selfText, a.data.isPrefixOf b.data = true → a = b) :
    (∀ s ∈ extractSecuritySymbols selfText,
      s ∉ extractSecuritySymbols otherText →
      ∃ h ∈ extractHoldingsFromPortfolio selfText, leadSymRun h = s ∧
        h ∈ (extractSecuritySymbols selfText).filterMap (fun s2 =>
          if s2 ∈ extractSecuritySymbols otherText then none
          else (extractHoldingsFromPortfolio selfText).find?
            (fun x => jsStartsWith x s2))) ∧
    (∀ h ∈ (extractSecuritySymbols selfText).filterMap (fun s2 =>
        if s2 ∈ extractSecuritySymbols otherText then none
        else (extractHoldingsFromPortfolio selfText).find?
          (fun x => jsStartsWith x s2)),
      h ∈ extractHoldingsFromPortfolio selfText ∧
        leadSymRun h ∈ extractSecuritySymbols selfText ∧
        leadSymRun h ∉ extractSecuritySymbols otherText) := by
  constructor
  · intro s hs hnot
    have hsome : ((extractHoldingsFromPortfolio selfText).find?
        (fun x => jsStartsWith x s)).isSome = true := by
      rw [List.find?_isSome]
      rw [extractSecuritySymbols_eq] at hs
      obtain ⟨t0, ht0, hsym⟩ := List.mem_map.mp hs
      refine ⟨String.mk t0.full, ?_, ?_⟩
      · rw [extractHoldingsFromPortfolio_eq]
        exact List.mem_map.mpr ⟨t0, ht0, rfl⟩
      · rw [← hsym]
        exact token_startsWith_sym t0
    obtain ⟨h, hfind⟩ := Option.isSome_iff_exists.mp hsome
    obtain ⟨hmem, hlead⟩ := find_holding_for_symbol selfText s h hpf hs hfind
    refine ⟨h, hmem, hlead, ?_⟩
    rw [List.mem_filterMap]
    refine ⟨s, hs, ?_⟩
    rw [if_neg hnot]
    exact hfind
  · intro h hmem
    rw [List.mem_filterMap] at hmem
    obtain ⟨s, hs, hif⟩ := hmem
    by_cases hin : s ∈ extractSecuritySymbols otherText
    · rw [if_pos hin] at hif
      exact absurd hif (by simp)
    · rw [if_neg hin] at hif
      obtain ⟨hmem2, hlead⟩ := find_holding_for_symbol selfText s h hpf hs hif
      rw [hlead]
      exact ⟨hmem2, hs, hin⟩

/-- C2 (amended): provided no extracted symbol of a day's list is a proper
prefix of another symbol of the same list, every comparison-day symbol
absent from today appears in `removedHoldings` through its own full
`"SYMBOL (NN%)"` string from the comparison day's holdings list, every
today-only symbol appears in `addedHoldings` through today's full string,
no other entries appear, and the spec's concrete example holds. -/
theorem compareModelHoldings_reports_deltas (todayModel ym : ModelData)
    (accountName : String) (date : ℕ)
    (hpfY : ∀ a ∈ extractSecuritySymbols ym.performance.portfolio,
      ∀ b ∈ extractSecuritySymbols ym.performance.portfolio,
        a.data.isPrefixOf b.data = true → a = b)
    (hpfT : ∀ a ∈ extractSecuritySymbols todayModel.performance.portfolio,
      ∀ b ∈ extractSecuritySymbols todayModel.performance.portfolio,
        a.data.isPrefixOf b.data = true → a = b) :
    (∀ s ∈ extractSecuritySymbols ym.performance.portfolio,
      s ∉ extractSecuritySymbols todayModel.performance.portfolio →
      ∃ h ∈ extractHoldingsFromPortfolio ym.performance.portfolio,
        leadSymRun h = s ∧
        h ∈ (compareModelHoldings todayModel (some ym) accountName
          date).removedHoldings) ∧
    (∀ h ∈ (compareModelHoldings todayModel (some ym) accountName
        date).removedHoldings,
      h ∈ extractHoldingsFromPortfolio ym.performance.portfolio ∧
        leadSymRun h ∈ extractSecuritySymbols ym.performance.portfolio ∧
        leadSymRun h ∉ extractSecuritySymbols todayModel.performance.portfolio) ∧
    (∀ s ∈ extractSecuritySymbols todayModel.performance.portfolio,
      s ∉ extractSecuritySymbols ym.performance.portfolio →
      ∃ h ∈ extractHoldingsFromPortfolio todayModel.performance.portfolio,
        leadSymRun h = s ∧
        h ∈ (compareModelHoldings todayModel (some ym) accountName
          date).addedHoldings) ∧
    (∀ h ∈ (compareModelHoldings todayModel (some ym) accountName
        date).addedHoldings,
      h ∈ extractHoldingsFromPortfolio todayModel.performance.portfolio ∧
        leadSymRun h ∈ extractSecuritySymbols todayModel.performance.portfolio ∧
        leadSymRun h ∉ extractSecuritySymbols ym.performance.portfolio) ∧
    ((compareModelHoldings ⟨"M", "M", ⟨0, 0, "PXT.TO (17%)\nTSLA (15%)"⟩⟩
        (some ⟨"M", "M", ⟨0, 0, "PXT.TO (18%)\nAAPL (25%)"⟩⟩)
        "Acct" 20000).addedHoldings = ["TSLA (15%)"] ∧
      (compareModelHoldings ⟨"M", "M", ⟨0, 0, "PXT.TO (17%)\nTSLA (15%)"⟩⟩
        (some ⟨"M", "M", ⟨0, 0, "PXT.TO (18%)\nAAPL (25%)"⟩⟩)
        "Acct" 20000).removedHoldings = ["AAPL (25%)"]) := by
  have hrm : ∀ x, x ∈ (compareModelHoldings todayModel (some ym) accountName
      date).removedHoldings ↔
      x ∈ (extractSecuritySymbols ym.performance.portfolio).filterMap (fun s2 =>
        if s2 ∈ extractSecuritySymbols todayModel.performance.portfolio then none
        else (extractHoldingsFromPortfolio ym.performance.portfolio).find?
          (fun x2 => jsStartsWith x2 s2)) := by
    intro x
    simp only [compareModelHoldings]
    rw [mem_jsSetDedup, removedLoop_eq]
  have had : ∀ x, x ∈ (compareModelHoldings todayModel (some ym) accountName
      date).addedHoldings ↔
      x ∈ (extractSecuritySymbols todayModel.performance.portfolio).filterMap
        (fun s2 =>
          if s2 ∈ extractSecuritySymbols ym.performance.portfolio then none
          else (extractHoldingsFromPortfolio todayModel.performance.portfolio).find?
            (fun x2 => jsStartsWith x2 s2)) := by
    intro x
    simp only [compareModelHoldings]
    rw [mem_jsSetDedup, mem_addedLoop]
  obtain ⟨dy1, dy2⟩ := delta_side ym.performance.portfolio
    todayModel.performance.portfolio hpfY
  obtain ⟨dt1, dt2⟩ := delta_side todayModel.performance.portfolio
    ym.performance.portfolio hpfT
  refine ⟨?_, ?_, ?_, ?_, by decide, by decide⟩
  · intro s hs hnot
    obtain ⟨h, hmem, hlead, hdel⟩ := dy1 s hs hnot
    exact ⟨h, hmem, hlead, (hrm h).mpr hdel⟩
  · intro h hmem
    exact dy2 h ((hrm h).mp hmem)
  · intro s hs hnot
    obtain ⟨h, hmem, hlead, hdel⟩ := dt1 s hs hnot
    exact ⟨h, hmem, hlead, (had h).mpr hdel⟩
  · intro h hmem
    exact dt2 h ((had h).mp hmem)

/-- C2 counterexample to the claim as stated: with comparison-day text
`"AAPL (20%)\nA (5%)"` and today's text `"AAPL (20%)"`, the symbol `A` is
removed, yet its full string `"A (5%)"` is not reported; instead the entry
`"AAPL (20%)"` — the string of a symbol still held today — is reported,
because the reporting lookup takes the first holding that merely starts
with the removed symbol. -/
theorem compareModelHoldings_prefix_collision :
    (compareModelHoldings ⟨"M", "M", ⟨0, 0, "AAPL (20%)"⟩⟩
      (some ⟨"M", "M", ⟨0, 0, "AAPL (20%)\nA (5%)"⟩⟩)
      "Acct" 20000).removedHoldings = ["AAPL (20%)"] ∧
    "A" ∈ extractSecuritySymbols "AAPL (20%)\nA (5%)" ∧
    "A" ∉ extractSecuritySymbols "AAPL (20%)" ∧
    "A (5%)" ∈ extractHoldingsFromPortfolio "AAPL (20%)\nA (5%)" ∧
    "A (5%)" ∉ (compareModelHoldings ⟨"M", "M", ⟨0, 0, "AAPL (20%)"⟩⟩
      (some ⟨"M", "M", ⟨0, 0, "AAPL (20%)\nA (5%)"⟩⟩)
      "Acct" 20000).removedHoldings ∧
    leadSymRun "AAPL (20%)" ≠ "A" ∧
    "AAPL" ∈ extractSecuritySymbols "AAPL (20%)" := by
  decide

/-- Witness for the amended C2 at the spec's combined add-and-remove
example. -/
theorem compareModelHoldings_reports_deltas_witness :
    ∃ h ∈ extractHoldingsFromPortfolio "PXT.TO (18%)\nAAPL (25%)",
      leadSymRun h = "AAPL" ∧
      h ∈ (compareModelHoldings ⟨"M", "M", ⟨0, 0, "PXT.TO (17%)\nTSLA (15%)"⟩⟩
        (some ⟨"M", "M", ⟨0, 0, "PXT.TO (18%)\nAAPL (25%)"⟩⟩)
        "Acct" 20000).removedHoldings :=
  (compareModelHoldings_reports_deltas
    ⟨"M", "M", ⟨0, 0, "PXT.TO (17%)\nTSLA (15%)"⟩⟩
    ⟨"M", "M", ⟨0, 0, "PXT.TO (18%)\nAAPL (25%)"⟩⟩
    "Acct" 20000 (by decide) (by decide)).1 "AAPL" (by decide) (by decide)

/-! ## Numeric parsing (`EmailParser.parseNumber`, part_007 lines 432–443)

JS numbers are modelled as `Option ℚ` with `none` for `NaN`.  After the
cleaning steps, the string handed to `parseFloat` contains only characters
from `[0-9.-]`; on that alphabet `parseFloat` reads an optional minus sign
followed by the longest prefix of the form `digits [. digits]` or
`. digits`, and is `NaN` when no such prefix exists. -/

/-- Numeric value of a digit run. -/
def digitsVal (l : List Char) : ℕ :=
  l.foldl (fun a c => a * 10 + (c.toNat - 48)) 0

/-- The pure reading phase of JS `parseFloat` on the `[0-9.-]` alphabet:
an optional minus sign, then either a non-empty integer digit run with an
optional fractional run after a dot, or a dot followed by a non-empty digit
run.  Returns the sign and the two digit runs, or `none` for `NaN`. -/
def parseFloatRead (l : List Char) : Option (Bool × List Char × List Char) :=
  let signed := l.head? = some '-'
  let l1 := if signed then l.tail else l
  let ip := l1.takeWhile isDigitChar
  let r1 := l1.dropWhile isDigitChar
  if ip ≠ [] then
    let fp := if r1.head? = some '.' then r1.tail.takeWhile isDigitChar else []
    some (signed, ip, fp)
  else
    if r1.head? = some '.' then
      let fp := r1.tail.takeWhile isDigitChar
      if fp = [] then none else some (signed, [], fp)
    else none

/-- Model of JS `parseFloat` restricted to strings over `[0-9.-]`. -/
def parseFloatQ (l : List Char) : Option ℚ :=
  (parseFloatRead l).map (fun t =>
    (if t.1 then (-1 : ℚ) else 1) *
      ((digitsVal t.2.1 : ℚ) + (digitsVal t.2.2 : ℚ) / (10 : ℚ) ^ t.2.2.length))

/-- The characters removed by the first cleaning step of `parseNumber`:
`value.replace(/[$,()]/g, '')`. -/
def isStrippedChar (c : Char) : Bool :=
  c == '$' || c == ',' || c == '(' || c == ')'

/-- The characters kept by the second cleaning step:
`cleaned.replace(/[^0-9.-]/g, '')`. -/
def isFloatChar (c : Char) : Bool :=
  isDigitChar c || c == '.' || c == '-'

/-- The cleaned text of `parseNumber`: strip `$`, `,`, `(`, `)`, then trim. -/
def parseNumberCleaned (value : String) : List Char :=
  jsTrimChars (value.data.filter (fun c => !isStrippedChar c))

/-- The negativity flag of `parseNumber`: the original text contains `(`,
or the cleaned text starts with `-`. -/
def parseNumberNeg (value : String) : Bool :=
  value.data.contains '(' || (parseNumberCleaned value).head? = some '-'

/-- Model of JS `Math.abs` on the rational embedding. -/
def jsAbs (q : ℚ) : ℚ :=
  if q < 0 then -q else q

/-- `EmailParser.parseNumber` (part_007 lines 432–443).  `none` models the
JS `NaN` result: `-Math.abs(NaN)` is `NaN`, while in the non-negative
branch `num || 0` collapses `NaN` (and `±0`) to `0`. -/
def parseNumber (value : String) : Option ℚ :=
  if value.data = [] then some 0
  else
    let num := parseFloatQ ((parseNumberCleaned value).filter isFloatChar)
    if parseNumberNeg value then num.map (fun q => -(jsAbs q))
    else some (match num with | none => 0 | some q => q)

/-- C4 counterexample to the claim as stated: `"(N/A)"` is unparseable
(its cleaned text has no digits), yet `parseNumber` does not return `0`:
the parenthesis sets the negativity flag and `-Math.abs(parseFloat(""))`
is `NaN`, modelled `none`. -/
theorem parseNumber_paren_nan :
    parseFloatQ ((parseNumberCleaned "(N/A)").filter isFloatChar) = none ∧
    parseNumber "(N/A)" = none ∧ parseNumber "(N/A)" ≠ some 0 := by
  refine ⟨by decide, by decide, ?_⟩
  intro h
  rw [(by decide : parseNumber "(N/A)" = none)] at h
  exact Option.noConfusion h

/-- C4 (amended): `parseNumber` strips `$`, commas and parentheses and the
three cited examples hold; however the result is `NaN` (modelled `none`) —
not `0` — exactly when the text is non-empty, the negativity flag
(original text contains `(` or cleaned text starts with `-`) is set, and
the cleaned digits do not parse; when they parse to `q`, the result is
`-Math.abs(q)` under the flag and `q` itself otherwise, so a minus
appearing mid-string after cleaning can also produce a negative result
without the flag. -/
theorem parseNumber_characterization :
    parseNumber "$(1,234.56)" = some (-(123456 / 100 : ℚ)) ∧
    parseNumber "" = some 0 ∧
    parseNumber "N/A" = some 0 ∧
    (∀ value : String,
      (parseNumber value = none ↔
        value.data ≠ [] ∧ parseNumberNeg value = true ∧
          parseFloatQ ((parseNumberCleaned value).filter isFloatChar) = none)) ∧
    (∀ value : String, ∀ q : ℚ, value.data ≠ [] →
      parseFloatQ ((parseNumberCleaned value).filter isFloatChar) = some q →
      parseNumber value = some (if parseNumberNeg value then -(jsAbs q) else q)) ∧
    (∀ value : String, value.data ≠ [] → parseNumberNeg value = false →
      parseFloatQ ((parseNumberCleaned value).filter isFloatChar) = none →
      parseNumber value = some 0) := by
  have hex1 : parseNumber "$(1,234.56)" = some (-(123456 / 100 : ℚ)) := by
    have hv : ¬(("$(1,234.56)" : String).data = []) := by decide
    have hn : parseNumberNeg "$(1,234.56)" = true := by decide
    have hread : parseFloatRead ((parseNumberCleaned "$(1,234.56)").filter isFloatChar)
        = some (false, ['1', '2', '3', '4'], ['5', '6']) := by decide
    have hd1 : digitsVal ['1', '2', '3', '4'] = 1234 := by decide
    have hd2 : digitsVal ['5', '6'] = 56 := by decide
    simp only [parseNumber]
    rw [if_neg hv, if_pos hn, parseFloatQ, hread]
    simp only [Option.map, Option.bind, hd1, hd2, List.length_cons, List.length_nil]
    congr 1
    have habs : ((if (false : Bool) = true then (-1 : ℚ) else 1) *
        ((((1234 : ℕ)) : ℚ) + (((56 : ℕ)) : ℚ) / (10 : ℚ) ^ (0 + 1 + 1)) : ℚ)
        = 123456 / 100 := by
      norm_num
    rw [habs]
    unfold jsAbs
    rw [if_neg (by norm_num)]
  refine ⟨hex1, by decide, by decide, ?_, ?_, ?_⟩
  · intro value
    simp only [parseNumber]
    by_cases hv : value.data = []
    · rw [if_pos hv]
      constructor
      · intro h
        exact Option.noConfusion h
      · rintro ⟨h1, -, -⟩
        exact absurd hv h1
    · rw [if_neg hv]
      by_cases hn : parseNumberNeg value = true
      · rw [if_pos hn]
        cases hp : parseFloatQ ((parseNumberCleaned value).filter isFloatChar) with
        | none => simp [hv, hn, hp]
        | some q => simp [hv, hn, hp]
      · rw [if_neg hn]
        constructor
        · intro h
          exact Option.noConfusion h
        · rintro ⟨-, h2, -⟩
          exact absurd h2 hn
  · intro value q hv hp
    simp only [parseNumber]
    rw [if_neg hv, hp]
    by_cases hn : parseNumberNeg value = true
    · rw [if_pos hn, if_pos hn]
      rfl
    · rw [if_neg hn, if_neg hn]
  · intro value hv hn hp
    simp only [parseNumber]
    rw [if_neg hv, hp, if_neg (by rw [hn]; exact Bool.false_ne_true)]

/-- Witness for the amended C4: the parenthesised-negative example, plus
the unset-flag unparseable case instantiated at `"N/A"` with its
hypotheses discharged concretely. -/
theorem parseNumber_characterization_witness :
    parseNumber "$(1,234.56)" = some (-(123456 / 100 : ℚ)) ∧
    parseNumber "N/A" = some 0 :=
  ⟨parseNumber_characterization.1,
    parseNumber_characterization.2.2.2.2.2 "N/A" (by decide) (by decide) (by decide)⟩

/-! ## Trading calendar (`BusinessDayUtils`, src/unnamed/part_004)

Dates are day numbers in the standard civil-era encoding (days since
0000-03-01).  `toEpochDay` is the usual civil-to-day-number algorithm; with
it, JS `new Date(iso)` / `setDate(getDate() ± 1)` arithmetic on UTC dates
is exactly `± 1` on day numbers, and `getDay()` equals `(day + 3) % 7` (day
719468, that is 1970-01-01, was a Thursday, JS day 4). -/

/-- Day number of a civil date `(y, m, d)` (days since 0000-03-01). -/
def toEpochDay (y m d : ℕ) : ℕ :=
  let yAdj := if m ≤ 2 then y - 1 else y
  let mp := if m ≤ 2 then m + 9 else m - 3
  let era := yAdj / 400
  let yoe := yAdj % 400
  let doy := (153 * mp + 2) / 5 + (d - 1)
  let doe := yoe * 365 + yoe / 4 - yoe / 100 + doy
  era * 146097 + doe

/-- The static holiday list `BusinessDayUtils.MARKET_HOLIDAYS` (part_004
lines 7–33), as civil dates. -/
def holidayTriples : List (ℕ × ℕ × ℕ) :=
  [(2024, 1, 1), (2024, 1, 15), (2024, 2, 19), (2024, 3, 29),
   (2024, 5, 27), (2024, 6, 19), (2024, 7, 4), (2024, 9, 2),
   (2024, 11, 28), (2024, 11, 29), (2024, 12, 25),
   (2025, 1, 1), (2025, 1, 20), (2025, 2, 17), (2025, 4, 18),
   (2025, 5, 26), (2025, 6, 19), (2025, 7, 4), (2025, 9, 1),
   (2025, 11, 27), (2025, 11, 28), (2025, 12, 25)]

/-- The holiday list as day numbers. -/
def holidayEpochs : List ℕ :=
  holidayTriples.map (fun t => toEpochDay t.1 t.2.1 t.2.2)

/-- JS `Date.prototype.getDay` (0 = Sunday … 6 = Saturday) of a day
number. -/
def dayOfWeekE (e : ℕ) : ℕ :=
  (e + 3) % 7

/-- `BusinessDayUtils.isTradingDay` (part_004 lines 38–53): not a weekend
and not in the holiday list. -/
def isTradingDayE (e : ℕ) : Bool :=
  if dayOfWeekE e = 0 ∨ dayOfWeekE e = 6 then false
  else if e ∈ holidayEpochs then false
  else true

/-- Fuel-bounded model of the backwards `do … while(true)` loop of
`BusinessDayUtils.getPreviousTradingDay` (part_004 lines 58–70): step one
calendar day back until a trading day is found. -/
def prevSearch : ℕ → ℕ → Option ℕ
  | 0, _ => none
  | n + 1, e =>
    if isTradingDayE (e - 1) then some (e - 1) else prevSearch n (e - 1)

/-- Fuel-bounded model of the forwards loop of
`BusinessDayUtils.getNextTradingDay` (part_004 lines 75–87). -/
def nextSearch : ℕ → ℕ → Option ℕ
  | 0, _ => none
  | n + 1, e =>
    if isTradingDayE (e + 1) then some (e + 1) else nextSearch n (e + 1)

/-- Total wrapper for the previous-trading-day search; for every real date
fuel 6 suffices (proved below), so the default is never reached there. -/
def prevTradingDayT (e : ℕ) : ℕ :=
  (prevSearch 6 e).getD (e - 1)

/-- Any three distinct market holidays span at least six days: the only
adjacent pair is Thanksgiving and the day after, and every other pair is
weeks apart. -/
theorem holiday_gap_triple :
    ∀ a ∈ holidayEpochs, ∀ b ∈ holidayEpochs, ∀ c ∈ holidayEpochs,
      a < b → b < c → a + 6 ≤ c := by decide

/-- `isTradingDayE` is false exactly on Saturdays, Sundays and listed
holidays. -/
theorem isTradingDayE_eq_false (e : ℕ) :
    isTradingDayE e = false ↔
      dayOfWeekE e = 0 ∨ dayOfWeekE e = 6 ∨ e ∈ holidayEpochs := by
  unfold isTradingDayE
  by_cases h1 : dayOfWeekE e = 0 ∨ dayOfWeekE e = 6
  · rw [if_pos h1]
    simp only [true_iff]
    rcases h1 with h | h
    · exact Or.inl h
    · exact Or.inr (Or.inl h)
  · rw [if_neg h1]
    by_cases h2 : e ∈ holidayEpochs
    · rw [if_pos h2]
      simp only [true_iff]
      exact Or.inr (Or.inr h2)
    · rw [if_neg h2]
      constructor
      · intro h
        exact Bool.noConfusion h
      · rintro (h | h | h)
        · exact absurd (Or.inl h) h1
        · exact absurd (Or.inr h) h1
        · exact absurd h h2

/-- From three in-window offsets that are not weekends, an all-non-trading
window would put three holidays within five days — impossible. -/
theorem window_case (e i1 i2 i3 : ℕ) (he : 7 ≤ e)
    (hi1 : 1 ≤ i1) (ho1 : i1 < i2) (ho2 : i2 < i3) (hi3 : i3 ≤ 6)
    (w1 : ¬(dayOfWeekE (e - i1) = 0 ∨ dayOfWeekE (e - i1) = 6))
    (w2 : ¬(dayOfWeekE (e - i2) = 0 ∨ dayOfWeekE (e - i2) = 6))
    (w3 : ¬(dayOfWeekE (e - i3) = 0 ∨ dayOfWeekE (e - i3) = 6))
    (hall : ∀ i, 1 ≤ i → i ≤ 6 → isTradingDayE (e - i) = false) : False := by
  have m1 : e - i1 ∈ holidayEpochs := by
    rcases (isTradingDayE_eq_false (e - i1)).mp (hall i1 hi1 (by omega)) with h | h | h
    · exact absurd (Or.inl h) w1
    · exact absurd (Or.inr h) w1
    · exact h
  have m2 : e - i2 ∈ holidayEpochs := by
    rcases (isTradingDayE_eq_false (e - i2)).mp (hall i2 (by omega) (by omega)) with
      h | h | h
    · exact absurd (Or.inl h) w2
    · exact absurd (Or.inr h) w2
    · exact h
  have m3 : e - i3 ∈ holidayEpochs := by
    rcases (isTradingDayE_eq_false (e - i3)).mp (hall i3 (by omega) hi3) with h | h | h
    · exact absurd (Or.inl h) w3
    · exact absurd (Or.inr h) w3
    · exact h
  have := holiday_gap_triple (e - i3) m3 (e - i2) m2 (e - i1) m1 (by omega) (by omega)
  omega

/-- In any six consecutive days before a date there is a trading day. -/
theorem trading_in_prev_window (e : ℕ) (he : 7 ≤ e) :
    ∃ i, 1 ≤ i ∧ i ≤ 6 ∧ isTradingDayE (e - i) = true := by
  by_contra hcon
  push_neg at hcon
  have hall : ∀ i, 1 ≤ i → i ≤ 6 → isTradingDayE (e - i) = false := by
    intro i h1 h2
    have := hcon i h1 h2
    cases hb : isTradingDayE (e - i)
    · rfl
    · exact absurd hb this
  have hr : e % 7 = 0 ∨ e % 7 = 1 ∨ e % 7 = 2 ∨ e % 7 = 3 ∨ e % 7 = 4 ∨
      e % 7 = 5 ∨ e % 7 = 6 := by omega
  unfold dayOfWeekE at *
  rcases hr with hr | hr | hr | hr | hr | hr | hr
  · exact window_case e 1 2 5 he (by omega) (by omega) (by omega) (by omega)
      (by unfold dayOfWeekE; omega) (by unfold dayOfWeekE; omega)
      (by unfold dayOfWeekE; omega) hall
  · exact window_case e 1 2 3 he (by omega) (by omega) (by omega) (by omega)
      (by unfold dayOfWeekE; omega) (by unfold dayOfWeekE; omega)
      (by unfold dayOfWeekE; omega) hall
  · exact window_case e 1 2 3 he (by omega) (by omega) (by omega) (by omega)
      (by unfold dayOfWeekE; omega) (by unfold dayOfWeekE; omega)
      (by unfold dayOfWeekE; omega) hall
  · exact window_case e 1 2 3 he (by omega) (by omega) (by omega) (by omega)
      (by unfold dayOfWeekE; omega) (by unfold dayOfWeekE; omega)
      (by unfold dayOfWeekE; omega) hall
  · exact window_case e 2 3 4 he (by omega) (by omega) (by omega) (by omega)
      (by unfold dayOfWeekE; omega) (by unfold dayOfWeekE; omega)
      (by unfold dayOfWeekE; omega) hall
  · exact window_case e 3 4 5 he (by omega) (by omega) (by omega) (by omega)
      (by unfold dayOfWeekE; omega) (by unfold dayOfWeekE; omega)
      (by unfold dayOfWeekE; omega) hall
  · exact window_case e 1 4 5 he (by omega) (by omega) (by omega) (by omega)
      (by unfold dayOfWeekE; omega) (by unfold dayOfWeekE; omega)
      (by unfold dayOfWeekE; omega) hall

/-- Whatever `prevSearch` returns is the latest trading day strictly before
the start: it is before the start, is a trading day, and no day strictly
between is a trading day. -/
theorem prevSearch_spec (n : ℕ) : ∀ e r : ℕ, n ≤ e → prevSearch n e = some r →
    r < e ∧ isTradingDayE r = true ∧
      ∀ x, r < x → x < e → isTradingDayE x = false := by
  induction n with
  | zero => intro e r _ h; exact Option.noConfusion h
  | succ n ih =>
    intro e r hn h
    rw [prevSearch] at h
    by_cases ht : isTradingDayE (e - 1) = true
    · rw [if_pos ht] at h
      injection h with h1
      subst h1
      refine ⟨by omega, ht, ?_⟩
      intro x hx1 hx2
      omega
    · rw [if_neg ht] at h
      obtain ⟨hr1, hr2, hr3⟩ := ih (e - 1) r (by omega) h
      refine ⟨by omega, hr2, ?_⟩
      intro x hx1 hx2
      by_cases hxe : x = e - 1
      · subst hxe
        cases hb : isTradingDayE (e - 1)
        · rfl
        · exact absurd hb ht
      · exact hr3 x hx1 (by omega)

/-- If some day within fuel reach is a trading day, `prevSearch` succeeds. -/
theorem prevSearch_isSome (n : ℕ) : ∀ e : ℕ,
    (∃ i, 1 ≤ i ∧ i ≤ n ∧ isTradingDayE (e - i) = true) →
    (prevSearch n e).isSome = true := by
  induction n with
  | zero =>
    intro e h
    obtain ⟨i, h1, h2, -⟩ := h
    omega
  | succ n ih =>
    intro e hex
    obtain ⟨i, h1, h2, h3⟩ := hex
    rw [prevSearch]
    by_cases ht : isTradingDayE (e - 1) = true
    · rw [if_pos ht]; rfl
    · rw [if_neg ht]
      apply ih (e - 1)
      refine ⟨i - 1, ?_, by omega, ?_⟩
      · rcases Nat.eq_or_lt_of_le h1 with h | h
        · exfalso
          rw [← h] at h3
          exact ht h3
        · omega
      · have : e - 1 - (i - 1) = e - i := by omega
        rw [this]
        exact h3

/-- Mirror of `prevSearch_spec` for the forwards search. -/
theorem nextSearch_spec (n : ℕ) : ∀ e r : ℕ, nextSearch n e = some r →
    e < r ∧ isTradingDayE r = true ∧
      ∀ x, e < x → x < r → isTradingDayE x = false := by
  induction n with
  | zero => intro e r h; exact Option.noConfusion h
  | succ n ih =>
    intro e r h
    rw [nextSearch] at h
    by_cases ht : isTradingDayE (e + 1) = true
    · rw [if_pos ht] at h
      injection h with h1
      subst h1
      refine ⟨by omega, ht, ?_⟩
      intro x hx1 hx2
      omega
    · rw [if_neg ht] at h
      obtain ⟨hr1, hr2, hr3⟩ := ih (e + 1) r h
      refine ⟨by omega, hr2, ?_⟩
      intro x hx1 hx2
      by_cases hxe : x = e + 1
      · subst hxe
        cases hb : isTradingDayE (e + 1)
        · rfl
        · exact absurd hb ht
      · exact hr3 x (by omega) hx2

/-- Mirror of `prevSearch_isSome` for the forwards search. -/
theorem nextSearch_isSome (n : ℕ) : ∀ e : ℕ,
    (∃ i, 1 ≤ i ∧ i ≤ n ∧ isTradingDayE (e + i) = true) →
    (nextSearch n e).isSome = true := by
  induction n with
  | zero =>
    intro e h
    obtain ⟨i, h1, h2, -⟩ := h
    omega
  | succ n ih =>
    intro e hex
    obtain ⟨i, h1, h2, h3⟩ := hex
    rw [nextSearch]
    by_cases ht : isTradingDayE (e + 1) = true
    · rw [if_pos ht]; rfl
    · rw [if_neg ht]
      apply ih (e + 1)
      refine ⟨i - 1, ?_, by omega, ?_⟩
      · rcases Nat.eq_or_lt_of_le h1 with h | h
        · exfalso
          rw [← h] at h3
          exact ht h3
        · omega
      · have : e + 1 + (i - 1) = e + i := by omega
        rw [this]
        exact h3

/-- C5: `isTradingDay` is false exactly on Saturdays, Sundays and listed
holidays, and the previous/next trading-day searches terminate (fuel 6
suffices) and return the latest trading day strictly before, respectively
the earliest trading day strictly after, the input date, stepping one
calendar day at a time. -/
theorem businessDayUtils_calendar (e : ℕ) (he : 7 ≤ e) :
    (isTradingDayE e = false ↔
      dayOfWeekE e = 6 ∨ dayOfWeekE e = 0 ∨ e ∈ holidayEpochs) ∧
    (∃ r, prevSearch 6 e = some r ∧ isTradingDayE r = true ∧ r < e ∧
      ∀ x, isTradingDayE x = true → x < e → x ≤ r) ∧
    (∃ r, nextSearch 6 e = some r ∧ isTradingDayE r = true ∧ e < r ∧
      ∀ x, isTradingDayE x = true → e < x → r ≤ x) := by
  refine ⟨?_, ?_, ?_⟩
  · rw [isTradingDayE_eq_false]
    tauto
  · have hsome : (prevSearch 6 e).isSome = true :=
      prevSearch_isSome 6 e (trading_in_prev_window e he)
    obtain ⟨r, hr⟩ := Option.isSome_iff_exists.mp hsome
    obtain ⟨h1, h2, h3⟩ := prevSearch_spec 6 e r (by omega) hr
    refine ⟨r, hr, h2, h1, ?_⟩
    intro x hx hxe
    by_contra hgt
    push_neg at hgt
    have := h3 x hgt hxe
    rw [this] at hx
    exact Bool.noConfusion hx
  · have hwin : ∃ i, 1 ≤ i ∧ i ≤ 6 ∧ isTradingDayE (e + i) = true := by
      obtain ⟨i, hi1, hi2, hi3⟩ := trading_in_prev_window (e + 7) (by omega)
      refine ⟨7 - i, by omega, by omega, ?_⟩
      have : e + 7 - i = e + (7 - i) := by omega
      rw [← this]
      exact hi3
    have hsome : (nextSearch 6 e).isSome = true := nextSearch_isSome 6 e hwin
    obtain ⟨r, hr⟩ := Option.isSome_iff_exists.mp hsome
    obtain ⟨h1, h2, h3⟩ := nextSearch_spec 6 e r hr
    refine ⟨r, hr, h2, h1, ?_⟩
    intro x hx hxe
    by_contra hgt
    push_neg at hgt
    have := h3 x hxe hgt
    rw [this] at hx
    exact Bool.noConfusion hx

/-- Witness for C5 at Monday 2025-07-07: the previous trading day is
Thursday 2025-07-03 (Friday 2025-07-04 is a holiday), the next is Tuesday
2025-07-08. -/
theorem businessDayUtils_calendar_witness :
    7 ≤ toEpochDay 2025 7 7 ∧
    ((isTradingDayE (toEpochDay 2025 7 7) = false ↔
      dayOfWeekE (toEpochDay 2025 7 7) = 6 ∨ dayOfWeekE (toEpochDay 2025 7 7) = 0 ∨
        toEpochDay 2025 7 7 ∈ holidayEpochs) ∧
    (∃ r, prevSearch 6 (toEpochDay 2025 7 7) = some r ∧ isTradingDayE r = true ∧
      r < toEpochDay 2025 7 7 ∧
      ∀ x, isTradingDayE x = true → x < toEpochDay 2025 7 7 → x ≤ r) ∧
    (∃ r, nextSearch 6 (toEpochDay 2025 7 7) = some r ∧ isTradingDayE r = true ∧
      toEpochDay 2025 7 7 < r ∧
      ∀ x, isTradingDayE x = true → toEpochDay 2025 7 7 < x → r ≤ x)) :=
  ⟨by decide, businessDayUtils_calendar (toEpochDay 2025 7 7) (by decide)⟩

/-- `BusinessDayUtils.calculateDaysDifference` (part_004 lines 132–137):
the absolute number of calendar days between two dates. -/
def calcDaysDiff (a b : ℕ) : ℕ :=
  if a ≤ b then b - a else a - b

/-- `BusinessDayUtils.getNoChangeReason` (part_004 lines 107–127).  The
previous-trading-day lookup uses the fuel-6 search, which the calendar
theorem shows is the loop's exact behaviour for every real date. -/
def getNoChangeReasonE (e : ℕ) : String :=
  if isTradingDayE e = false then
    if dayOfWeekE e = 0 ∨ dayOfWeekE e = 6 then "Markets closed - Weekend"
    else "Markets closed - Holiday"
  else
    let p := prevTradingDayT e
    let daysDiff := calcDaysDiff p e
    if 3 < daysDiff then
      "Markets closed - " ++ Nat.repr daysDiff ++ " day gap since last trading day"
    else "First trading day comparison"

/-! ## Locale-aware string comparison

`getAccountPortfolios`, the change sort and the combined-account sort all
compare with `String.prototype.localeCompare`, whose default collation
(ICU root, as in Node) orders ASCII letters case-insensitively at primary
strength and breaks ties by case with lower case first.  The model below
reproduces that order for ASCII strings; it is deliberately distinct from
code-point order (`codeCmp`), which is what JS `sort()` without a
comparator uses. -/

/-- Primary collation key of an ASCII character: letters fold together
above all non-letters, other characters keep code-point order. -/
def localePrimaryKey (c : Char) : ℕ :=
  if 65 ≤ c.toNat ∧ c.toNat ≤ 90 then 1000 + (c.toNat + 32)
  else if 97 ≤ c.toNat ∧ c.toNat ≤ 122 then 1000 + c.toNat
  else c.toNat

/-- Case key: upper case sorts after lower case at the tiebreak level. -/
def localeCaseKey (c : Char) : ℕ :=
  if 65 ≤ c.toNat ∧ c.toNat ≤ 90 then 1 else 0

/-- Three-way lexicographic comparison of key lists. -/
def listCmp : List ℕ → List ℕ → Int
  | [], [] => 0
  | [], _ :: _ => -1
  | _ :: _, [] => 1
  | a :: as, b :: bs => if a < b then -1 else if b < a then 1 else listCmp as bs

/-- Model of `String.prototype.localeCompare` for ASCII strings: compare
primary keys over the whole string, then case keys. -/
def localeCmp (s t : String) : Int :=
  let p := listCmp (s.data.map localePrimaryKey) (t.data.map localePrimaryKey)
  if p = 0 then listCmp (s.data.map localeCaseKey) (t.data.map localeCaseKey) else p

/-- Code-point (UTF-16 code-unit for the basic plane) comparison: the order
of JS `sort()` without a comparator and the claim's "case-sensitive
lexicographic order". -/
def codeCmp (a b : String) : Int :=
  listCmp (a.data.map Char.toNat) (b.data.map Char.toNat)

/-- The comparator of the change sort (part_005 lines 93–98): account name
first (only when the raw strings differ), then model name. -/
def changeCmp (a b : PortfolioChange) : Int :=
  if a.accountName ≠ b.accountName then localeCmp a.accountName b.accountName
  else localeCmp a.modelName b.modelName

/-- JS `Array.prototype.sort` with a comparator, modelled as a stable
insertion sort (ES2019 requires a stable, sorted result). -/
def sortChanges (l : List PortfolioChange) : List PortfolioChange :=
  List.insertionSort (fun a b => changeCmp a b ≤ 0) l

/-- JS `Array.prototype.sort()` on strings (code-unit order). -/
def sortStrings (l : List String) : List String :=
  List.insertionSort (fun a b => codeCmp a b ≤ 0) l

/-- The date-scoped aggregate of changes (`ChangeAlert` of `../types`). -/
structure ChangeAlert where
  hasChanges : Bool
  totalChanges : ℕ
  changes : List PortfolioChange
  affectedAccounts : List String
  date : ℕ
  message : String
  comparisonDate : Option ℕ
  deriving DecidableEq, Repr

/-- The `affectedAccounts.includes / push` idiom (part_005 lines 61–63):
append a name unless it is already present. -/
def pushUnique (l : List String) (a : String) : List String :=
  if a ∈ l then l else l ++ [a]

/-- The per-account comparison body of `detectChanges` (part_005 lines
48–90): per-model comparison for every model present today, then the
completely-removed-model sweep over the comparison day's models. -/
def detectChangesAccount (previousPortfolios : List AccountPortfolio)
    (today : ℕ) (st : List PortfolioChange × List String)
    (tAcc : AccountPortfolio) : List PortfolioChange × List String :=
  let pAcc := previousPortfolios.find? (fun ya => ya.accountName == tAcc.accountName)
  let st1 := tAcc.models.foldl (fun st tm =>
    let pm := match pAcc with
      | some pa => pa.models.find? (fun ym => ym.name == tm.name)
      | none => none
    let mc := compareModelHoldings tm pm tAcc.accountName today
    if mc.addedHoldings ≠ [] ∨ mc.removedHoldings ≠ [] then
      (st.1 ++ [mc], pushUnique st.2 tAcc.accountName)
    else st) st
  match pAcc with
  | some pa =>
    pa.models.foldl (fun st pmodel =>
      if tAcc.models.any (fun tm2 => tm2.name == pmodel.name) then st
      else
        (st.1 ++ [{ modelName := pmodel.name
                    accountName := tAcc.accountName
                    addedHoldings := []
                    removedHoldings :=
                      extractHoldingsFromPortfolio pmodel.performance.portfolio
                    date := today }],
          pushUnique st.2 tAcc.accountName)) st1
  | none => st1

/-- `ChangeDetectionService.detectChanges` (part_005 lines 15–119) as a
pure function over a fetch oracle.  The second component of the result is
the instrumentation trace: the dates passed to
`AccountPortfolioService.getAccountPortfolios` (the email-fetch path), in
order. -/
def detectChangesModel (fetch : ℕ → List AccountPortfolio) (today : ℕ) :
    ChangeAlert × List ℕ :=
  if isTradingDayE today = false then
    ({ hasChanges := false
       totalChanges := 0
       changes := []
       affectedAccounts := []
       date := today
       message := getNoChangeReasonE today
       comparisonDate := none }, [])
  else
    let previousTradingDay := prevTradingDayT today
    let todayPortfolios := fetch today
    let previousPortfolios := fetch previousTradingDay
    let st := todayPortfolios.foldl
      (detectChangesAccount previousPortfolios today) ([], [])
    let changes := sortChanges st.1
    let message :=
      if changes.length > 0 then
        "Found " ++ Nat.repr changes.length ++
          " changes compared to previous trading day (" ++
          Nat.repr previousTradingDay ++ ")"
      else
        "No changes detected compared to previous trading day (" ++
          Nat.repr previousTradingDay ++ ")"
    ({ hasChanges := decide (changes.length > 0)
       totalChanges := changes.length
       changes := changes
       affectedAccounts := sortStrings st.2
       date := today
       message := message
       comparisonDate := some previousTradingDay }, [today, previousTradingDay])

/-- C3: on a non-trading date, `detectChanges` returns a `ChangeAlert` with
`hasChanges = false`, a null `comparisonDate`, empty changes and affected
accounts, and the calendar-derived message — and the fetch trace is empty:
the account-portfolio / email-fetch path is never invoked. -/
theorem detectChanges_non_trading_day (fetch : ℕ → List AccountPortfolio)
    (e : ℕ) (h : isTradingDayE e = false) :
    detectChangesModel fetch e =
      ({ hasChanges := false
         totalChanges := 0
         changes := []
         affectedAccounts := []
         date := e
         message := getNoChangeReasonE e
         comparisonDate := none }, []) := by
  unfold detectChangesModel
  rw [if_pos h]

/-- Witness for C3 on Saturday 2025-07-05 with an arbitrary oracle. -/
theorem detectChanges_non_trading_day_witness :
    isTradingDayE (toEpochDay 2025 7 5) = false ∧
    getNoChangeReasonE (toEpochDay 2025 7 5) = "Markets closed - Weekend" ∧
    detectChangesModel (fun _ => []) (toEpochDay 2025 7 5) =
      ({ hasChanges := false
         totalChanges := 0
         changes := []
         affectedAccounts := []
         date := toEpochDay 2025 7 5
         message := getNoChangeReasonE (toEpochDay 2025 7 5)
         comparisonDate := none }, []) :=
  ⟨by decide, by decide,
    detectChanges_non_trading_day (fun _ => []) (toEpochDay 2025 7 5) (by decide)⟩

/-- A predicate on changes is preserved by folding a step that preserves
it on every list element. -/
theorem foldl_changes_invariant {α : Type} (P : PortfolioChange → Prop)
    (f : (List PortfolioChange × List String) → α →
      (List PortfolioChange × List String)) :
    ∀ (l : List α),
      (∀ st a, a ∈ l → (∀ c ∈ st.1, P c) → ∀ c ∈ (f st a).1, P c) →
      ∀ (st : List PortfolioChange × List String),
        (∀ c ∈ st.1, P c) → ∀ c ∈ (l.foldl f st).1, P c := by
  intro l
  induction l with
  | nil => intro _ st h; exact h
  | cons a t ih =>
    intro hf st h
    simp only [List.foldl_cons]
    exact ih (fun st2 b hb => hf st2 b (List.mem_cons_of_mem a hb)) (f st a)
      (hf st a (List.mem_cons_self a t) h)

/-- The per-account step keeps every pushed change non-empty, provided all
comparison-day models have a non-empty extracted holdings list. -/
theorem detectChangesAccount_nonempty (prevP : List AccountPortfolio)
    (today : ℕ)
    (hprev : ∀ acct ∈ prevP, ∀ m ∈ acct.models,
      extractHoldingsFromPortfolio m.performance.portfolio ≠ [])
    (st : List PortfolioChange × List String) (tAcc : AccountPortfolio)
    (hst : ∀ c ∈ st.1, c.addedHoldings ≠ [] ∨ c.removedHoldings ≠ []) :
    ∀ c ∈ (detectChangesAccount prevP today st tAcc).1,
      c.addedHoldings ≠ [] ∨ c.removedHoldings ≠ [] := by
  unfold detectChangesAccount
  have hstep1 : ∀ (st2 : List PortfolioChange × List String) tm,
      tm ∈ tAcc.models →
      (∀ c ∈ st2.1, c.addedHoldings ≠ [] ∨ c.removedHoldings ≠ []) →
      ∀ c ∈ ((fun st tm =>
        let pm := match prevP.find? (fun ya => ya.accountName == tAcc.accountName) with
          | some pa => pa.models.find? (fun ym => ym.name == tm.name)
          | none => none
        let mc := compareModelHoldings tm pm tAcc.accountName today
        if mc.addedHoldings ≠ [] ∨ mc.removedHoldings ≠ [] then
          (st.1 ++ [mc], pushUnique st.2 tAcc.accountName)
        else st) st2 tm).1,
      c.addedHoldings ≠ [] ∨ c.removedHoldings ≠ [] := by
    intro st2 tm _ h c hc
    simp only at hc
    by_cases hg : (compareModelHoldings tm
        (match prevP.find? (fun ya => ya.accountName == tAcc.accountName) with
          | some pa => pa.models.find? (fun ym => ym.name == tm.name)
          | none => none) tAcc.accountName today).addedHoldings ≠ [] ∨
        (compareModelHoldings tm
        (match prevP.find? (fun ya => ya.accountName == tAcc.accountName) with
          | some pa => pa.models.find? (fun ym => ym.name == tm.name)
          | none => none) tAcc.accountName today).removedHoldings ≠ []
    · rw [if_pos hg] at hc
      rcases List.mem_append.mp hc with hc2 | hc2
      · exact h c hc2
      · rw [List.mem_singleton] at hc2
        subst hc2
        exact hg
    · rw [if_neg hg] at hc
      exact h c hc
  have h1 : ∀ c ∈ (tAcc.models.foldl (fun st tm =>
      let pm := match prevP.find? (fun ya => ya.accountName == tAcc.accountName) with
        | some pa => pa.models.find? (fun ym => ym.name == tm.name)
        | none => none
      let mc := compareModelHoldings tm pm tAcc.accountName today
      if mc.addedHoldings ≠ [] ∨ mc.removedHoldings ≠ [] then
        (st.1 ++ [mc], pushUnique st.2 tAcc.accountName)
      else st) st).1,
      c.addedHoldings ≠ [] ∨ c.removedHoldings ≠ [] :=
    foldl_changes_invariant _ _ tAcc.models hstep1 st hst
  cases hfind : prevP.find? (fun ya => ya.accountName == tAcc.accountName) with
  | none =>
    simp only [hfind] at h1 ⊢
    exact h1
  | some pa =>
    have hpa : pa ∈ prevP := List.mem_of_find?_eq_some hfind
    simp only [hfind] at h1 ⊢
    apply foldl_changes_invariant _ _ pa.models ?_ _ h1
    intro st2 pmodel hpm h c hc
    simp only at hc
    by_cases hg : tAcc.models.any (fun tm2 => tm2.name == pmodel.name) = true
    · rw [if_pos hg] at hc
      exact h c hc
    · rw [if_neg hg] at hc
      rcases List.mem_append.mp hc with hc2 | hc2
      · exact h c hc2
      · rw [List.mem_singleton] at hc2
        subst hc2
        exact Or.inr (hprev pa hpa pmodel hpm)

/-- C6 (amended): every `PortfolioChange` in the alert has a non-empty
delta, provided every model of the comparison day's accounts has at least
one `"SYMBOL (NN%)"` token in its portfolio text; without that proviso the
completely-removed-model path can emit a change with both lists empty. -/
theorem detectChanges_changes_nonempty (fetch : ℕ → List AccountPortfolio)
    (e : ℕ)
    (hprev : ∀ acct ∈ fetch (prevTradingDayT e), ∀ m ∈ acct.models,
      extractHoldingsFromPortfolio m.performance.portfolio ≠ []) :
    ∀ c ∈ (detectChangesModel fetch e).1.changes,
      c.addedHoldings ≠ [] ∨ c.removedHoldings ≠ [] := by
  intro c hc
  unfold detectChangesModel at hc
  by_cases ht : isTradingDayE e = false
  · rw [if_pos ht] at hc
    simp at hc
  · rw [if_neg ht] at hc
    simp only [sortChanges] at hc
    have hmem : c ∈ ((fetch e).foldl
        (detectChangesAccount (fetch (prevTradingDayT e)) e) ([], [])).1 := by
      have hperm := List.perm_insertionSort (fun a b => changeCmp a b ≤ 0)
        ((fetch e).foldl (detectChangesAccount (fetch (prevTradingDayT e)) e)
          ([], [])).1
      exact hperm.mem_iff.mp hc
    exact foldl_changes_invariant _ _ (fetch e)
      (fun st tAcc _ hst =>
        detectChangesAccount_nonempty (fetch (prevTradingDayT e)) e hprev st tAcc hst)
      ([], []) (by simp) c hmem

/-- Oracle for the C6 counterexample: on Monday 2025-07-07 the account
holds one unchanged model; on the previous trading day it additionally
held a model `"Gone"` whose portfolio text contains no holdings token. -/
def fetchGoneEmpty : ℕ → List AccountPortfolio := fun d =>
  if d = toEpochDay 2025 7 7 then
    [⟨"Acct", [⟨"Model One", "M1", ⟨0, 0, "AAA (50%)"⟩⟩], 0, d⟩]
  else
    [⟨"Acct", [⟨"Model One", "M1", ⟨0, 0, "AAA (50%)"⟩⟩,
      ⟨"Gone", "G", ⟨0, 0, ""⟩⟩], 0, d⟩]

/-- C6 counterexample to the claim as stated: a model present on the
comparison day with an empty portfolio text and absent today produces a
`PortfolioChange` with **both** lists empty (and it still sets
`hasChanges`), because the removed-model path pushes unconditionally. -/
theorem detectChanges_empty_change :
    (detectChangesModel fetchGoneEmpty (toEpochDay 2025 7 7)).1.changes =
      [⟨"Gone", "Acct", [], [], toEpochDay 2025 7 7⟩] ∧
    (detectChangesModel fetchGoneEmpty (toEpochDay 2025 7 7)).1.hasChanges
      = true := by
  decide

/-- Oracle for the C6 witness: a genuine symbol replacement between the
two days, with non-empty portfolio texts throughout. -/
def fetchSwap : ℕ → List AccountPortfolio := fun d =>
  if d = toEpochDay 2025 7 7 then
    [⟨"Acct", [⟨"Model One", "M1", ⟨0, 0, "BBB (40%)"⟩⟩], 0, d⟩]
  else
    [⟨"Acct", [⟨"Model One", "M1", ⟨0, 0, "AAA (50%)"⟩⟩], 0, d⟩]

/-- Witness for the amended C6 on a concrete oracle whose comparison-day
portfolios all carry holdings tokens: the single resulting change is in
the alert and, by the theorem, has a non-empty delta. -/
theorem detectChanges_changes_nonempty_witness :
    (⟨"Model One", "Acct", ["BBB (40%)"], ["AAA (50%)"], toEpochDay 2025 7 7⟩ :
        PortfolioChange) ∈
      (detectChangesModel fetchSwap (toEpochDay 2025 7 7)).1.changes ∧
    ((⟨"Model One", "Acct", ["BBB (40%)"], ["AAA (50%)"], toEpochDay 2025 7 7⟩ :
        PortfolioChange).addedHoldings ≠ [] ∨
      (⟨"Model One", "Acct", ["BBB (40%)"], ["AAA (50%)"], toEpochDay 2025 7 7⟩ :
        PortfolioChange).removedHoldings ≠ []) :=
  ⟨by decide,
    detectChanges_changes_nonempty fetchSwap (toEpochDay 2025 7 7) (by decide)
      ⟨"Model One", "Acct", ["BBB (40%)"], ["AAA (50%)"], toEpochDay 2025 7 7⟩
      (by decide)⟩

/-! ## Round trip of the holdings-string format (C7) -/

/-- Matching a single well-formed token consumes it exactly. -/
theorem matchAt_token (isSym : Char → Bool) (sym d : List Char)
    (hsym : sym ≠ []) (hsymAll : ∀ c ∈ sym, isSym c = true)
    (hd : d ≠ []) (hdAll : ∀ c ∈ d, isDigitChar c = true)
    (hsp : isSym ' ' = false) :
    matchAt isSym (sym ++ ' ' :: '(' :: (d ++ ['%', ')'])) =
      some (⟨sym, [' '], d⟩, []) := by
  have e1 : (sym ++ ' ' :: '(' :: (d ++ ['%', ')'])).takeWhile isSym = sym := by
    apply takeWhile_append_run hsymAll
    intro c bs hE
    injection hE with h1 h2
    rw [← h1]
    exact hsp
  have e2 : (sym ++ ' ' :: '(' :: (d ++ ['%', ')'])).dropWhile isSym =
      ' ' :: '(' :: (d ++ ['%', ')']) := by
    apply dropWhile_append_run hsymAll
    intro c bs hE
    injection hE with h1 h2
    rw [← h1]
    exact hsp
  have e3 : (' ' :: '(' :: (d ++ ['%', ')'])).takeWhile isWSChar = [' '] := by
    rw [List.takeWhile_cons, if_pos (by decide), List.takeWhile_cons,
      if_neg (by decide)]
  have e4 : (' ' :: '(' :: (d ++ ['%', ')'])).dropWhile isWSChar =
      '(' :: (d ++ ['%', ')']) := by
    rw [List.dropWhile_cons, if_pos (by decide), List.dropWhile_cons,
      if_neg (by decide)]
  have e5 : (d ++ ['%', ')']).takeWhile isDigitChar = d := by
    apply takeWhile_append_run hdAll
    intro c bs hE
    injection hE with h1 h2
    rw [← h1]
    decide
  have e6 : (d ++ ['%', ')']).dropWhile isDigitChar = ['%', ')'] := by
    apply dropWhile_append_run hdAll
    intro c bs hE
    injection hE with h1 h2
    rw [← h1]
    decide
  simp only [matchAt, e1, e2, e3, e4, List.tail_cons, List.head?_cons, e5, e6]
  simp [hsym, hd]

/-- `scanTokensF` yields nothing on empty input. -/
theorem scanTokensF_nil (isSym : Char → Bool) (n : ℕ) :
    scanTokensF isSym n [] = [] := by
  cases n <;> rfl

/-- Scanning a single well-formed token yields exactly that token. -/
theorem scanTokens_token (isSym : Char → Bool) (sym d : List Char)
    (hsym : sym ≠ []) (hsymAll : ∀ c ∈ sym, isSym c = true)
    (hd : d ≠ []) (hdAll : ∀ c ∈ d, isDigitChar c = true)
    (hsp : isSym ' ' = false) :
    scanTokens isSym (sym ++ ' ' :: '(' :: (d ++ ['%', ')'])) =
      [⟨sym, [' '], d⟩] := by
  have hm := matchAt_token isSym sym d hsym hsymAll hd hdAll hsp
  cases hs : sym with
  | nil => exact absurd hs hsym
  | cons c0 s0 =>
    subst hs
    rw [List.cons_append] at hm ⊢
    rw [scanTokens]
    simp only [List.length_cons]
    rw [scanTokensF, hm]
    simp [scanTokensF_nil]

/-- C7: round trip of the holdings-string format: a token
`SYMBOL (NN%)` — symbol of capital letters and dots, non-empty integer
percentage — parses, under both holdings extractors, to exactly the
one-element list holding the identical string (which the report layer
embeds verbatim), and its extracted symbol is exactly `SYMBOL`. -/
theorem holdings_round_trip (sym d : List Char) (hsym : sym ≠ [])
    (hsymAll : ∀ c ∈ sym, (65 ≤ c.toNat ∧ c.toNat ≤ 90) ∨ c.toNat = 46)
    (hd : d ≠ []) (hdAll : ∀ c ∈ d, 48 ≤ c.toNat ∧ c.toNat ≤ 57) :
    extractHoldingsFromPortfolio
        (String.mk (sym ++ ' ' :: '(' :: (d ++ ['%', ')']))) =
      [String.mk (sym ++ ' ' :: '(' :: (d ++ ['%', ')']))] ∧
    extractHoldingsWithPercentages
        (String.mk (sym ++ ' ' :: '(' :: (d ++ ['%', ')']))) =
      [String.mk (sym ++ ' ' :: '(' :: (d ++ ['%', ')']))] ∧
    extractSecuritySymbols
        (String.mk (sym ++ ' ' :: '(' :: (d ++ ['%', ')']))) =
      [String.mk sym] := by
  have h5 : ∀ c ∈ sym, isSymChar5 c = true := by
    intro c hc
    rcases hsymAll c hc with h | h <;> simp [isSymChar5] <;> omega
  have h6 : ∀ c ∈ sym, isSymChar6 c = true := by
    intro c hc
    rcases hsymAll c hc with h | h <;> simp [isSymChar6] <;> omega
  have hdig : ∀ c ∈ d, isDigitChar c = true := by
    intro c hc
    have := hdAll c hc
    simp [isDigitChar]
    omega
  have hscan5 := scanTokens_token isSymChar5 sym d hsym h5 hd hdig (by decide)
  have hscan6 := scanTokens_token isSymChar6 sym d hsym h6 hd hdig (by decide)
  have hdata : (String.mk (sym ++ ' ' :: '(' :: (d ++ ['%', ')']))).data =
      sym ++ ' ' :: '(' :: (d ++ ['%', ')']) := rfl
  refine ⟨?_, ?_, ?_⟩
  · rw [extractHoldingsFromPortfolio_eq, hdata, hscan5]
    simp [HoldToken.full]
  · rw [extractHoldingsWithPercentages_eq, hdata, hscan6]
    simp [HoldToken.full]
  · rw [extractSecuritySymbols_eq, hdata, hscan5]
    simp

/-- Witness for C7 at the spec's `"NVDA (22%)"` example. -/
theorem holdings_round_trip_witness :
    extractHoldingsFromPortfolio "NVDA (22%)" = ["NVDA (22%)"] ∧
    extractHoldingsWithPercentages "NVDA (22%)" = ["NVDA (22%)"] ∧
    extractSecuritySymbols "NVDA (22%)" = ["NVDA"] := by
  have h := holdings_round_trip ['N', 'V', 'D', 'A'] ['2', '2']
    (by decide) (by decide) (by decide) (by decide)
  obtain ⟨h1, h2, h3⟩ := h
  have hs : ("NVDA (22%)" : String) =
      String.mk (['N', 'V', 'D', 'A'] ++ ' ' :: '(' :: (['2', '2'] ++ ['%', ')'])) := by
    decide
  have hs2 : ("NVDA" : String) = String.mk ['N', 'V', 'D', 'A'] := by decide
  rw [hs, hs2]
  exact ⟨h1, h2, h3⟩

/-! ## The three fuzzy model-name matchers (C10) -/

/-- `EmailParser.modelsMatch` (part_007 lines 662–685): falsy guard, exact
case-insensitive match, raw containment both ways, then prefix-stripped
equality. -/
def emailModelsMatch (emailModel sheetModel : String) : Bool :=
  if emailModel.data = [] ∨ sheetModel.data = [] then false
  else if jsToLower emailModel = jsToLower sheetModel then true
  else if jsIncludes (jsToLower emailModel) (jsToLower sheetModel) ||
      jsIncludes (jsToLower sheetModel) (jsToLower emailModel) then true
  else if jsToLower (stripLeadNum emailModel) = jsToLower (stripLeadNum sheetModel)
    then true
  else false

/-- `AccountPortfolioService.modelsMatch` (accountPortfolioService.ts lines
177–200); textually the same algorithm as the email parser's. -/
def accountModelsMatch (emailModel sheetModel : String) : Bool :=
  if emailModel.data = [] ∨ sheetModel.data = [] then false
  else if jsToLower emailModel = jsToLower sheetModel then true
  else if jsIncludes (jsToLower emailModel) (jsToLower sheetModel) ||
      jsIncludes (jsToLower sheetModel) (jsToLower emailModel) then true
  else if jsToLower (stripLeadNum emailModel) = jsToLower (stripLeadNum sheetModel)
    then true
  else false

/-- `ModelWatchListService.modelsMatch` (part_009 lines 230–253): falsy
guard, exact case-insensitive match, prefix-stripped equality, then
containment of the **prefix-stripped** names. -/
def watchModelsMatch (modelName1 modelName2 : String) : Bool :=
  if modelName1.data = [] ∨ modelName2.data = [] then false
  else if jsToLower modelName1 = jsToLower modelName2 then true
  else if jsToLower (stripLeadNum modelName1) = jsToLower (stripLeadNum modelName2)
    then true
  else if jsIncludes (jsToLower (stripLeadNum modelName1))
        (jsToLower (stripLeadNum modelName2)) ||
      jsIncludes (jsToLower (stripLeadNum modelName2))
        (jsToLower (stripLeadNum modelName1)) then true
  else false

/-- C10 counterexample: the watch-list matcher tests containment after
stripping the numeric prefix, the other two before; on
`("1. Glen S&P", "Glen S&P 100")` the watch-list matcher matches but the
email-parser and account-service matchers do not. -/
theorem modelsMatch_not_extensionally_equal :
    watchModelsMatch "1. Glen S&P" "Glen S&P 100" = true ∧
    emailModelsMatch "1. Glen S&P" "Glen S&P 100" = false ∧
    accountModelsMatch "1. Glen S&P" "Glen S&P 100" = false := by
  decide

/-- C10 (amended): `EmailParser.modelsMatch` and
`AccountPortfolioService.modelsMatch` are extensionally equal; the
watch-list matcher is not (see the counterexample). -/
theorem emailModelsMatch_eq_accountModelsMatch :
    ∀ a b : String, emailModelsMatch a b = accountModelsMatch a b :=
  fun _ _ => rfl

/-! ## Currency-suffix helpers (`CombinedAccountService`, part_006 lines
162–180) -/

/-- The trailing `$USD`/`$CAD` (case-insensitive) recognizer shared by both
regexes: the match of `\$(?:USD|CAD)$/i`, upper-cased, when present. -/
def curSuffix (s : String) : Option String :=
  match s.data.reverse with
  | c3 :: c2 :: c1 :: c0 :: _ =>
    if c0 = '$' then
      if jsLowerChar c1 = 'u' ∧ jsLowerChar c2 = 's' ∧ jsLowerChar c3 = 'd' then
        some "USD"
      else if jsLowerChar c1 = 'c' ∧ jsLowerChar c2 = 'a' ∧ jsLowerChar c3 = 'd' then
        some "CAD"
      else none
    else none
  | _ => none

/-- `CombinedAccountService.extractCurrency` (part_006 lines 174–180):
note its regex does **not** require whitespace before the `$`. -/
def extractCurrency (s : String) : String :=
  (curSuffix s).getD "USD"

/-- `CombinedAccountService.extractBaseAccountName` (part_006 lines
166–168): remove a trailing whitespace run plus `$USD`/`$CAD`
(case-insensitive); unchanged when the pattern — including the mandatory
whitespace — is absent. -/
def extractBaseAccountName (s : String) : String :=
  match curSuffix s with
  | none => s
  | some _ =>
    let rest := s.data.reverse.drop 4
    if rest.takeWhile isWSChar ≠ [] then
      String.mk ((rest.dropWhile isWSChar).reverse)
    else s

/-- C8 counterexample to the claim as stated: `"Glen RRSP$CAD"` has no
whitespace before the `$`, so `extractBaseAccountName` leaves it unchanged
(no suffix in the claim's sense is present), yet `extractCurrency` still
returns `"CAD"` rather than the claimed `"USD"` default, because its regex
does not require the whitespace. -/
theorem extractCurrency_no_whitespace_divergence :
    extractBaseAccountName "Glen RRSP$CAD" = "Glen RRSP$CAD" ∧
    extractCurrency "Glen RRSP$CAD" = "CAD" ∧
    "CAD" ≠ ("USD" : String) := by
  refine ⟨by decide, by decide, by decide⟩

/-- C8 (amended): `extractBaseAccountName` removes a trailing
whitespace-plus-`$USD`/`$CAD` suffix (case-insensitive) and leaves names
without such a suffix unchanged; `extractCurrency` upper-cases a trailing
`$USD`/`$CAD` whether or not whitespace precedes it — so the two functions
disagree about names like `"Glen RRSP$CAD"` — and returns `"USD"` only
when no trailing `$USD`/`$CAD` is present at all. -/
theorem currency_suffix_behaviour :
    (extractBaseAccountName "Glen RRSP $USD" = "Glen RRSP" ∧
      extractCurrency "Glen RRSP $USD" = "USD") ∧
    (∀ s : String, curSuffix s = none →
      extractBaseAccountName s = s ∧ extractCurrency s = "USD") ∧
    (∀ (a w : List Char) (c1 c2 c3 : Char), w ≠ [] →
      (∀ c ∈ w, isWSChar c = true) →
      (∀ c, a.getLast? = some c → isWSChar c = false) →
      ((jsLowerChar c1 = 'u' ∧ jsLowerChar c2 = 's' ∧ jsLowerChar c3 = 'd') ∨
        (jsLowerChar c1 = 'c' ∧ jsLowerChar c2 = 'a' ∧ jsLowerChar c3 = 'd')) →
      extractBaseAccountName (String.mk (a ++ w ++ '$' :: [c1, c2, c3])) =
          String.mk a ∧
        extractCurrency (String.mk (a ++ w ++ '$' :: [c1, c2, c3])) =
          (if jsLowerChar c1 = 'u' then "USD" else "CAD")) ∧
    (∀ (a : List Char) (c1 c2 c3 : Char), a ≠ [] →
      (∀ c, a.getLast? = some c → isWSChar c = false) →
      ((jsLowerChar c1 = 'u' ∧ jsLowerChar c2 = 's' ∧ jsLowerChar c3 = 'd') ∨
        (jsLowerChar c1 = 'c' ∧ jsLowerChar c2 = 'a' ∧ jsLowerChar c3 = 'd')) →
      extractBaseAccountName (String.mk (a ++ '$' :: [c1, c2, c3])) =
          String.mk (a ++ '$' :: [c1, c2, c3]) ∧
        extractCurrency (String.mk (a ++ '$' :: [c1, c2, c3])) =
          (if jsLowerChar c1 = 'u' then "USD" else "CAD")) := by
  have husd : ∀ (c1 c2 c3 : Char),
      (jsLowerChar c1 = 'u' ∧ jsLowerChar c2 = 's' ∧ jsLowerChar c3 = 'd') ∨
        (jsLowerChar c1 = 'c' ∧ jsLowerChar c2 = 'a' ∧ jsLowerChar c3 = 'd') →
      ∀ rest : List Char,
      (match (c3 :: c2 :: c1 :: '$' :: rest : List Char) with
        | c3 :: c2 :: c1 :: c0 :: _ =>
          if c0 = '$' then
            if jsLowerChar c1 = 'u' ∧ jsLowerChar c2 = 's' ∧ jsLowerChar c3 = 'd' then
              some "USD"
            else if jsLowerChar c1 = 'c' ∧ jsLowerChar c2 = 'a' ∧
                jsLowerChar c3 = 'd' then
              some "CAD"
            else none
          else none
        | _ => (none : Option String)) =
        some (if jsLowerChar c1 = 'u' then "USD" else "CAD") := by
    intro c1 c2 c3 hcur rest
    rcases hcur with ⟨h1, h2, h3⟩ | ⟨h1, h2, h3⟩
    · simp only
      rw [if_pos trivial, if_pos ⟨h1, h2, h3⟩, if_pos h1]
    · simp only
      rw [if_pos trivial]
      have hnu : ¬(jsLowerChar c1 = 'u' ∧ jsLowerChar c2 = 's' ∧
          jsLowerChar c3 = 'd') := by
        rintro ⟨hu, -, -⟩
        rw [h1] at hu
        exact absurd hu (by decide)
      rw [if_neg hnu, if_pos ⟨h1, h2, h3⟩,
        if_neg (by rw [h1]; decide)]
  refine ⟨⟨by decide, by decide⟩, ?_, ?_, ?_⟩
  · intro s hnone
    constructor
    · unfold extractBaseAccountName
      rw [hnone]
    · unfold extractCurrency
      rw [hnone]
      rfl
  · intro a w c1 c2 c3 hw hwAll haLast hcur
    have hrev : (String.mk (a ++ w ++ '$' :: [c1, c2, c3])).data.reverse =
        c3 :: c2 :: c1 :: '$' :: (w.reverse ++ a.reverse) := by
      simp
    have hsuf : curSuffix (String.mk (a ++ w ++ '$' :: [c1, c2, c3])) =
        some (if jsLowerChar c1 = 'u' then "USD" else "CAD") := by
      unfold curSuffix
      rw [hrev]
      exact husd c1 c2 c3 hcur (w.reverse ++ a.reverse)
    have hdropWS : (w.reverse ++ a.reverse).dropWhile isWSChar = a.reverse := by
      apply dropWhile_append_run
      · intro c hc
        exact hwAll c (List.mem_reverse.mp hc)
      · intro c bs hE
        apply haLast
        rw [← List.head?_reverse, hE]
        rfl
    have htakeWS : (w.reverse ++ a.reverse).takeWhile isWSChar ≠ [] := by
      cases hwr : w.reverse with
      | nil =>
        exfalso
        apply hw
        have := congrArg List.reverse hwr
        simpa using this
      | cons c0 ws0 =>
        have hc0 : isWSChar c0 = true := by
          apply hwAll
          apply List.mem_reverse.mp
          rw [hwr]
          exact List.mem_cons_self c0 ws0
        rw [List.cons_append, List.takeWhile_cons, if_pos hc0]
        simp
    constructor
    · unfold extractBaseAccountName
      rw [hsuf]
      simp only [hrev, List.drop_succ_cons, List.drop_zero]
      rw [if_pos htakeWS, hdropWS, List.reverse_reverse]
    · unfold extractCurrency
      rw [hsuf]
      rfl
  · intro a c1 c2 c3 ha haLast hcur
    have hrev : (String.mk (a ++ '$' :: [c1, c2, c3])).data.reverse =
        c3 :: c2 :: c1 :: '$' :: a.reverse := by
      simp
    have hsuf : curSuffix (String.mk (a ++ '$' :: [c1, c2, c3])) =
        some (if jsLowerChar c1 = 'u' then "USD" else "CAD") := by
      unfold curSuffix
      rw [hrev]
      exact husd c1 c2 c3 hcur a.reverse
    have htakeWS : a.reverse.takeWhile isWSChar = [] := by
      cases har : a.reverse with
      | nil => rfl
      | cons c0 as0 =>
        have : isWSChar c0 = false := by
          apply haLast
          rw [← List.head?_reverse, har]
          rfl
        rw [List.takeWhile_cons, if_neg (by rw [this]; exact Bool.false_ne_true)]
    constructor
    · unfold extractBaseAccountName
      rw [hsuf]
      simp only [hrev, List.drop_succ_cons, List.drop_zero]
      rw [if_neg (by rw [htakeWS]; simp)]
    · unfold extractCurrency
      rw [hsuf]
      rfl

/-- Witness for the amended C8 at the spec's example and a lower-case CAD
variant. -/
theorem currency_suffix_behaviour_witness :
    extractBaseAccountName (String.mk ("Anne TFSA".data ++ [' '] ++
        '$' :: ['c', 'a', 'd'])) = String.mk "Anne TFSA".data ∧
    extractCurrency (String.mk ("Anne TFSA".data ++ [' '] ++
        '$' :: ['c', 'a', 'd'])) = "CAD" :=
  (currency_suffix_behaviour.2.2.1 "Anne TFSA".data [' '] 'c' 'a' 'd'
    (by decide) (by decide) (by decide) (by decide))

/-- Three-way comparison is antisymmetric under swapping. -/
theorem listCmp_swap : ∀ a b : List ℕ, listCmp a b = -listCmp b a := by
  intro a
  induction a with
  | nil =>
    intro b
    cases b <;> simp [listCmp]
  | cons x as ih =>
    intro b
    cases b with
    | nil => simp [listCmp]
    | cons y bs =>
      simp only [listCmp]
      rcases lt_trichotomy x y with h | h | h
      · rw [if_pos h, if_neg (by omega), if_pos h]
      · rw [if_neg (by omega), if_neg (by omega), if_neg (by omega),
          if_neg (by omega)]
        exact ih bs
      · rw [if_neg (by omega), if_pos h, if_pos h]
        rfl

/-- Three-way comparison is zero exactly on equal lists. -/
theorem listCmp_eq_zero : ∀ a b : List ℕ, listCmp a b = 0 ↔ a = b := by
  intro a
  induction a with
  | nil =>
    intro b
    cases b <;> simp [listCmp]
  | cons x as ih =>
    intro b
    cases b with
    | nil => simp [listCmp]
    | cons y bs =>
      simp only [listCmp]
      rcases lt_trichotomy x y with h | h | h
      · rw [if_pos h]
        simp only [List.cons.injEq]
        constructor
        · intro hc; exact absurd hc (by omega)
        · rintro ⟨h1, -⟩; omega
      · rw [if_neg (by omega), if_neg (by omega), ih]
        subst h
        simp
      · rw [if_neg (by omega), if_pos h]
        simp only [List.cons.injEq]
        constructor
        · intro hc; exact absurd hc (by omega)
        · rintro ⟨h1, -⟩; omega

/-- Strict three-way comparison is transitive. -/
theorem listCmp_lt_trans : ∀ a b c : List ℕ,
    listCmp a b < 0 → listCmp b c < 0 → listCmp a c < 0 := by
  intro a
  induction a with
  | nil =>
    intro b c hab hbc
    cases b with
    | nil => simp [listCmp] at hab
    | cons y bs =>
      cases c with
      | nil => simp [listCmp] at hbc
      | cons z cs => simp [listCmp]
  | cons x as ih =>
    intro b c hab hbc
    cases b with
    | nil => simp [listCmp] at hab
    | cons y bs =>
      cases c with
      | nil => simp [listCmp] at hbc
      | cons z cs =>
        simp only [listCmp] at hab hbc ⊢
        by_cases h1 : x < y
        · have hyz : y ≤ z := by
            by_contra hzy
            push_neg at hzy
            rw [if_neg (by omega), if_pos hzy] at hbc
            omega
          rw [if_pos (by omega)]
          omega
        · rw [if_neg h1] at hab
          by_cases h2 : y < x
          · rw [if_pos h2] at hab
            omega
          · rw [if_neg h2] at hab
            have hxy : x = y := by omega
            subst hxy
            by_cases h3 : x < z
            · rw [if_pos h3]
              omega
            · rw [if_neg h3] at hbc ⊢
              by_cases h4 : z < x
              · rw [if_pos h4] at hbc
                omega
              · rw [if_neg h4] at hbc ⊢
                exact ih bs cs hab hbc

/-- Non-strict three-way comparison is transitive. -/
theorem listCmp_le_trans (a b c : List ℕ)
    (hab : listCmp a b ≤ 0) (hbc : listCmp b c ≤ 0) : listCmp a c ≤ 0 := by
  by_cases h1 : listCmp a b = 0
  · have heq := (listCmp_eq_zero a b).mp h1
    subst heq
    exact hbc
  · by_cases h2 : listCmp b c = 0
    · have heq := (listCmp_eq_zero b c).mp h2
      subst heq
      exact hab
    · have := listCmp_lt_trans a b c (by omega) (by omega)
      omega

/-- The locale comparison model is antisymmetric under swapping. -/
theorem localeCmp_swap (s t : String) : localeCmp s t = -localeCmp t s := by
  unfold localeCmp
  have h1 := listCmp_swap (s.data.map localePrimaryKey) (t.data.map localePrimaryKey)
  have h2 := listCmp_swap (s.data.map localeCaseKey) (t.data.map localeCaseKey)
  by_cases hp : listCmp (s.data.map localePrimaryKey) (t.data.map localePrimaryKey) = 0
  · have hp2 : listCmp (t.data.map localePrimaryKey) (s.data.map localePrimaryKey)
        = 0 := by omega
    rw [if_pos hp, if_pos hp2, h2]
  · have hp2 : ¬listCmp (t.data.map localePrimaryKey) (s.data.map localePrimaryKey)
        = 0 := by omega
    rw [if_neg hp, if_neg hp2]
    exact h1

/-- The locale comparison model is transitive at the non-strict level. -/
theorem localeCmp_le_trans (a b c : String)
    (hab : localeCmp a b ≤ 0) (hbc : localeCmp b c ≤ 0) : localeCmp a c ≤ 0 := by
  unfold localeCmp at *
  by_cases p1 : listCmp (a.data.map localePrimaryKey) (b.data.map localePrimaryKey) = 0
  · have heq := (listCmp_eq_zero _ _).mp p1
    rw [if_pos p1] at hab
    by_cases p2 : listCmp (b.data.map localePrimaryKey)
        (c.data.map localePrimaryKey) = 0
    · have heq2 := (listCmp_eq_zero _ _).mp p2
      rw [if_pos p2] at hbc
      have p3 : listCmp (a.data.map localePrimaryKey)
          (c.data.map localePrimaryKey) = 0 :=
        (listCmp_eq_zero _ _).mpr (heq.trans heq2)
      rw [if_pos p3]
      exact listCmp_le_trans _ _ _ hab hbc
    · rw [if_neg p2] at hbc
      have p3 : listCmp (a.data.map localePrimaryKey)
          (c.data.map localePrimaryKey) =
          listCmp (b.data.map localePrimaryKey) (c.data.map localePrimaryKey) := by
        rw [heq]
      have hne : ¬listCmp (a.data.map localePrimaryKey)
          (c.data.map localePrimaryKey) = 0 := by
        rw [p3]; exact p2
      rw [if_neg hne, p3]
      exact hbc
  · rw [if_neg p1] at hab
    by_cases p2 : listCmp (b.data.map localePrimaryKey)
        (c.data.map localePrimaryKey) = 0
    · have heq2 := (listCmp_eq_zero _ _).mp p2
      have p3 : listCmp (a.data.map localePrimaryKey)
          (c.data.map localePrimaryKey) =
          listCmp (a.data.map localePrimaryKey) (b.data.map localePrimaryKey) := by
        rw [heq2]
      have hne : ¬listCmp (a.data.map localePrimaryKey)
          (c.data.map localePrimaryKey) = 0 := by
        rw [p3]; exact p1
      rw [if_neg hne, p3]
      exact hab
    · rw [if_neg p2] at hbc
      have := listCmp_lt_trans (a.data.map localePrimaryKey)
        (b.data.map localePrimaryKey) (c.data.map localePrimaryKey)
        (by omega) (by omega)
      rw [if_neg (by omega)]
      omega

/-! ## Portfolio assembly (`AccountPortfolioService.getAccountPortfolios`,
accountPortfolioService.ts lines 46–164) -/

/-- One row of the model-to-account mapping sheet. -/
structure ModelMapping where
  model : String
  account : String
  deriving DecidableEq, Repr

/-- A parsed holding (`Holding` of `../types`); numeric fields as ℚ. -/
structure Holding where
  symbol : String
  name : String
  quantity : ℚ
  price : ℚ
  value : ℚ
  dayChange : ℚ
  dayChangePercent : ℚ
  performance : Option PerfData
  deriving DecidableEq, Repr

/-- Conversion of a holding to `ModelData` (accountPortfolioService.ts
lines 110–130): a missing performance block gets the default with
`finalEquity := value`, `returnYTD := dayChangePercent` and an empty
portfolio text. -/
def toModelData (h : Holding) : ModelData :=
  { name := h.name
    symbol := h.symbol
    performance := h.performance.getD ⟨h.value, h.dayChangePercent, ""⟩ }

/-- Insertion-ordered account grouping (`accountGroups[accountName].push`):
a JS object with string keys preserves insertion order, modelled by an
association list. -/
def upsertGroup (groups : List (String × List ModelData)) (acct : String)
    (md : ModelData) : List (String × List ModelData) :=
  if groups.any (fun g => g.1 == acct) then
    groups.map (fun g => if g.1 == acct then (g.1, g.2 ++ [md]) else g)
  else groups ++ [(acct, [md])]

/-- The pure core of `getAccountPortfolios`: group the day's parsed
holdings by all fuzzy-matching account mappings, build one
`AccountPortfolio` per account with the summed `finalEquity`, and sort by
account name with `localeCompare`. -/
def getAccountPortfoliosCore (mappings : List ModelMapping)
    (holdings : List Holding) (date : ℕ) : List AccountPortfolio :=
  let groups := holdings.foldl (fun groups holding =>
    let matching := mappings.filter (fun m => accountModelsMatch holding.name m.model)
    if matching ≠ [] then
      matching.foldl (fun gs mapping =>
        upsertGroup gs mapping.account (toModelData holding)) groups
    else groups) []
  let portfolios := groups.map (fun g =>
    { accountName := g.1
      models := g.2
      totalValue := g.2.foldl (fun s m => s + m.performance.finalEquity) 0
      date := date : AccountPortfolio })
  List.insertionSort (fun a b => localeCmp a.accountName b.accountName ≤ 0)
    portfolios

instance : IsTotal AccountPortfolio
    (fun a b => localeCmp a.accountName b.accountName ≤ 0) :=
  ⟨fun a b => by
    have := localeCmp_swap a.accountName b.accountName
    omega⟩

instance : IsTrans AccountPortfolio
    (fun a b => localeCmp a.accountName b.accountName ≤ 0) :=
  ⟨fun _ _ _ hab hbc => localeCmp_le_trans _ _ _ hab hbc⟩

/-- C9 counterexample to the claim as stated: with mappings to accounts
`"alpha"` and `"Beta"`, the output order is `["alpha", "Beta"]` — the
locale-aware `localeCompare` order — although in case-sensitive code-point
order `"Beta" < "alpha"`, so the output is not sorted in the claimed
order. -/
theorem getAccountPortfolios_not_codepoint_sorted :
    (getAccountPortfoliosCore
        [⟨"Model Alpha", "alpha"⟩, ⟨"Model Beta", "Beta"⟩]
        [⟨"MA", "Model Alpha", 0, 0, 0, 0, 0, none⟩,
         ⟨"MB", "Model Beta", 0, 0, 0, 0, 0, none⟩] 0).map
      (fun p => p.accountName) = ["alpha", "Beta"] ∧
    codeCmp "Beta" "alpha" < 0 ∧ 0 < codeCmp "alpha" "Beta" ∧
    ¬ List.Sorted (fun a b : AccountPortfolio =>
        codeCmp a.accountName b.accountName ≤ 0)
      (getAccountPortfoliosCore
        [⟨"Model Alpha", "alpha"⟩, ⟨"Model Beta", "Beta"⟩]
        [⟨"MA", "Model Alpha", 0, 0, 0, 0, 0, none⟩,
         ⟨"MB", "Model Beta", 0, 0, 0, 0, 0, none⟩] 0) := by
  refine ⟨by decide, by decide, by decide, ?_⟩
  intro hsorted
  have h1 : (getAccountPortfoliosCore
      [⟨"Model Alpha", "alpha"⟩, ⟨"Model Beta", "Beta"⟩]
      [⟨"MA", "Model Alpha", 0, 0, 0, 0, 0, none⟩,
       ⟨"MB", "Model Beta", 0, 0, 0, 0, 0, none⟩] 0).map
      (fun p => p.accountName) = ["alpha", "Beta"] := by decide
  rcases hl : getAccountPortfoliosCore
      [⟨"Model Alpha", "alpha"⟩, ⟨"Model Beta", "Beta"⟩]
      [⟨"MA", "Model Alpha", 0, 0, 0, 0, 0, none⟩,
       ⟨"MB", "Model Beta", 0, 0, 0, 0, 0, none⟩] 0 with
    _ | ⟨p1, rest⟩
  · rw [hl] at h1
    exact List.noConfusion h1
  rcases rest with _ | ⟨p2, rest2⟩
  · rw [hl] at h1
    simp at h1
  rw [hl] at h1 hsorted
  simp only [List.map_cons, List.map_nil] at h1
  rcases rest2 with _ | _
  · injection h1 with ha h1b
    injection h1b with hb h1c
    rw [List.sorted_cons] at hsorted
    obtain ⟨hfirst, -⟩ := hsorted
    have := hfirst p2 (List.mem_cons_self p2 [])
    rw [ha, hb] at this
    have hcode : ¬ codeCmp "alpha" "Beta" ≤ 0 := by decide
    exact hcode this
  · simp at h1

/-- C9 (amended): the output of `getAccountPortfolios` is sorted by
account name in the locale-aware `localeCompare` order (case-insensitive
at primary strength for ASCII), not in case-sensitive code-point order. -/
theorem getAccountPortfolios_sorted (mappings : List ModelMapping)
    (holdings : List Holding) (date : ℕ) :
    List.Sorted (fun a b : AccountPortfolio =>
      localeCmp a.accountName b.accountName ≤ 0)
      (getAccountPortfoliosCore mappings holdings date) := by
  unfold getAccountPortfoliosCore
  exact List.sorted_insertionSort _ _
